import Mathlib

/-!
Shallow embedding of the resumable SFTP directory-transfer engine
(src/main.py and src/web_ui.py).

The progress files upload_progress.json and download_progress.json are modelled
as association lists from a root path to the list of completed item identifiers
(the JSON object, in insertion order).  The per-item transfer loops of
web_ui.upload_folder and web_ui.download_folder are modelled as a state machine
over an oracle telling, for each item and attempt index, whether the transfer
call succeeds; the machine records the observable side effects (connects,
transfer calls, progress-file saves, channel discards, sleeps, record clears)
as an event trace, mirroring the control flow of the source line by line.
-/

/-- The stored progress mapping of one progress file: root path to the list of
completed item identifiers, in JSON object insertion order. -/
abbrev ProgressMap := List (String × List String)

/-- Dictionary lookup in a stored progress mapping, as progress.get(key). -/
def lookupKey : ProgressMap → String → Option (List String)
  | [], _ => none
  | (k, v) :: rest, key => if k = key then some v else lookupKey rest key

/-- Dictionary update, as the Python assignment progress[key] = value: the first
binding of the key is replaced in place, a missing key is appended at the end. -/
def setKey : ProgressMap → String → List String → ProgressMap
  | [], key, v => [(key, v)]
  | (k, w) :: rest, key, v =>
    if k = key then (key, v) :: rest else (k, w) :: setKey rest key v

/-- Dictionary deletion, as the Python statement del progress[key]. -/
def delKey : ProgressMap → String → ProgressMap
  | [], _ => []
  | (k, w) :: rest, key => if k = key then rest else (k, w) :: delKey rest key

/-- web_ui.save_progress lines 37-42: load the mapping, replace the entry of
folder_path by completed_files, write the whole mapping back. -/
def save_progress (store : ProgressMap) (folder_path : String)
    (completed_files : List String) : ProgressMap :=
  setKey store folder_path completed_files

/-- web_ui.clear_progress lines 44-50: delete the entry of folder_path when
present and write the mapping back, otherwise leave the file untouched. -/
def clear_progress (store : ProgressMap) (folder_path : String) : ProgressMap :=
  if (lookupKey store folder_path).isSome then delKey store folder_path else store

/-- web_ui.save_download_progress lines 242-247, same algorithm as save_progress
on the download progress file. -/
def save_download_progress (store : ProgressMap) (remote_path : String)
    (completed_files : List String) : ProgressMap :=
  setKey store remote_path completed_files

/-- web_ui.clear_download_progress lines 249-255, same algorithm as
clear_progress on the download progress file. -/
def clear_download_progress (store : ProgressMap) (remote_path : String) : ProgressMap :=
  if (lookupKey store remote_path).isSome then delKey store remote_path else store

/-- Observable side effects of a session, in program order.  save and clear
record writes of the progress file belonging to the running direction;
put and getFile are the per-item upload_file and sftp.get calls of the
plain loops; the remaining constructors belong to the archive pipelines. -/
inductive Event where
  | connect
  | put (item : String)
  | getFile (item : String)
  | save (root : String) (completed : List String)
  | clear (root : String)
  | closeChannel
  | sleep (secs : Nat)
  | compressLocal
  | compressRemote
  | putArchive
  | getArchive
  | extractRemote
  | extractLocal
  | removeRemote
  | removeLocal
deriving DecidableEq, Repr

/-- Result lines appended to the results list of a session, abstracted from the
Chinese message strings of the source. -/
inductive Line where
  | err
  | alreadyDone (n : Nat)
  | resumeNote (n : Nat)
  | ok (path : String)
  | fail (path : String)
  | allDone (n : Nat)
deriving DecidableEq, Repr

/-- The transfer event of the per-item loop: upload_file in upload_folder when
dl is false, sftp.get in download_folder when dl is true. -/
def xferEvent (dl : Bool) (item : String) : Event :=
  if dl then Event.getFile item else Event.put item

/-- Outcome of the attempt loop of one item. -/
structure AttemptOut where
  events : List Event
  chan : Bool
  completed : List String
  store : ProgressMap
  ok : Bool
deriving DecidableEq, Repr

/-- The inner attempt loop for one item, web_ui.py lines 190-216 and 393-419.
atts is the list of remaining attempt indices (initially the three indices 0,
1, 2 of range(max_retries)); chan is whether sftp and transport are non-None;
oracle a tells whether the transfer call of attempt a succeeds.  A successful
attempt appends the identifier to the completed list, saves the whole record
and stops; a final failed attempt leaves state as is; a non-final failed
attempt closes and nulls the channel, sleeps 2 seconds and retries, the fresh
connection being made lazily at the top of the next attempt. -/
def attemptRun (dl : Bool) (oracle : Nat → Bool) (root item : String) :
    List Nat → Bool → List String → ProgressMap → AttemptOut
  | [], chan, completed, store =>
    { events := [], chan := chan, completed := completed, store := store, ok := false }
  | a :: rest, chan, completed, store =>
    let connEv : List Event := if chan then [] else [Event.connect]
    if oracle a then
      let completed2 := completed ++ [item]
      { events := connEv ++ [xferEvent dl item, Event.save root completed2],
        chan := true, completed := completed2,
        store := setKey store root completed2, ok := true }
    else if rest.isEmpty then
      { events := connEv ++ [xferEvent dl item], chan := true,
        completed := completed, store := store, ok := false }
    else
      let out := attemptRun dl oracle root item rest false completed store
      { events := connEv ++ [xferEvent dl item, Event.closeChannel, Event.sleep 2]
          ++ out.events,
        chan := out.chan, completed := out.completed, store := out.store, ok := out.ok }

/-- Mutable state of the per-item loop: the channel flag, the in-memory
completed list, the on-disk progress mapping, the results list and the
accumulated event trace. -/
structure LoopState where
  chan : Bool
  completed : List String
  store : ProgressMap
  lines : List Line
  events : List Event
deriving DecidableEq, Repr

/-- One iteration of the per-item loop: run the attempt loop of the item and
append its result line.  An item is a pair of its completion identifier (the
relative path for uploads, the absolute remote path for downloads) and the
path shown in the result line. -/
def runItem (dl : Bool) (oracle : String → Nat → Bool) (root : String)
    (s : LoopState) (item : String × String) : LoopState :=
  let out := attemptRun dl (oracle item.1) root item.1 [0, 1, 2] s.chan s.completed s.store
  { chan := out.chan, completed := out.completed, store := out.store,
    lines := s.lines ++ [if out.ok then Line.ok item.2 else Line.fail item.2],
    events := s.events ++ out.events }

/-- The per-item transfer loop over the remaining items in manifest order,
web_ui.py lines 184-216 (upload) and 388-419 (download). -/
def transfer_loop (dl : Bool) (oracle : String → Nat → Bool) (root : String)
    (items : List (String × String)) (s : LoopState) : LoopState :=
  items.foldl (runItem dl oracle root) s

/-- Observable outcome of one session run: result lines, event trace, final
on-disk progress mapping and final in-memory completed list. -/
structure SessionResult where
  lines : List Line
  events : List Event
  store : ProgressMap
  completed : List String
deriving DecidableEq, Repr

/-- web_ui.upload_folder lines 147-232.  all_files is the manifest computed by
get_all_files; store is the on-disk upload progress mapping; oracle item a
tells whether attempt a of the item succeeds.  Mirrors the source: empty
manifest error, resume load, early return when nothing remains, the per-item
loop, and the final clear when every manifest item is completed. -/
def upload_folder (oracle : String → Nat → Bool) (store : ProgressMap)
    (folder_path : String) (all_files : List String) (resume : Bool) : SessionResult :=
  if all_files = [] then
    { lines := [Line.err], events := [], store := store, completed := [] }
  else
    let completed0 := if resume then (lookupKey store folder_path).getD [] else []
    let remaining := all_files.filter (fun f => decide (f ∉ completed0))
    if remaining = [] ∧ completed0 ≠ [] then
      { lines := [Line.alreadyDone completed0.length], events := [],
        store := store, completed := completed0 }
    else
      let lines0 := if completed0 = [] then [] else [Line.resumeNote completed0.length]
      let st := transfer_loop false oracle folder_path (remaining.map (fun f => (f, f)))
        { chan := false, completed := completed0, store := store,
          lines := lines0, events := [] }
      if ∀ f ∈ all_files, f ∈ st.completed then
        { lines := st.lines ++ [Line.allDone all_files.length],
          events := st.events ++ [Event.clear folder_path],
          store := clear_progress st.store folder_path, completed := st.completed }
      else
        { lines := st.lines, events := st.events, store := st.store,
          completed := st.completed }

/-- web_ui.download_folder lines 321-435.  remote_files_map is the manifest
computed by get_all_remote_files, a list of pairs of absolute remote path and
relative path in dictionary insertion order; store is the on-disk download
progress mapping.  The connection is established at line 348, before the
manifest scan and before the resume progress is consulted; the completion
identifiers are the absolute remote paths; the final clear compares the length
of the completed list with the size of the manifest. -/
def download_folder (oracle : String → Nat → Bool) (store : ProgressMap)
    (remote_path : String) (remote_files_map : List (String × String))
    (resume : Bool) : SessionResult :=
  if remote_files_map = [] then
    { lines := [Line.err], events := [Event.connect], store := store, completed := [] }
  else
    let completed0 := if resume then (lookupKey store remote_path).getD [] else []
    let remaining := remote_files_map.filter (fun p => decide (p.1 ∉ completed0))
    if remaining = [] ∧ completed0 ≠ [] then
      { lines := [Line.alreadyDone completed0.length], events := [Event.connect],
        store := store, completed := completed0 }
    else
      let lines0 := if completed0 = [] then [] else [Line.resumeNote completed0.length]
      let st := transfer_loop true oracle remote_path remaining
        { chan := true, completed := completed0, store := store,
          lines := lines0, events := [Event.connect] }
      if st.completed.length = remote_files_map.length then
        { lines := st.lines ++ [Line.allDone remote_files_map.length],
          events := st.events ++ [Event.clear remote_path],
          store := clear_download_progress st.store remote_path,
          completed := st.completed }
      else
        { lines := st.lines, events := st.events, store := st.store,
          completed := st.completed }

/-- Failure kinds a connection attempt can raise, from the error taxonomy of
main.create_sftp_client: an authentication failure or any other network error. -/
inductive ConnError where
  | auth
  | network
deriving DecidableEq, Repr

/-- Recursion of web_ui.create_sftp_connection over the remaining attempt
indices.  connectAttempt a models the create_sftp_client call of attempt a:
none is success, some e a raised error.  Returns the number of connect calls
made and the surfaced outcome.  Every exception is caught alike; only the
final attempt re-raises, every earlier failure sleeps 2 seconds and retries. -/
def create_sftp_connection_go (connectAttempt : Nat → Option ConnError) :
    List Nat → Nat × Option ConnError
  | [] => (0, none)
  | a :: rest =>
    match connectAttempt a with
    | none => (1, none)
    | some e =>
      if rest.isEmpty then (1, some e)
      else
        let out := create_sftp_connection_go connectAttempt rest
        (out.1 + 1, out.2)

/-- web_ui.create_sftp_connection lines 74-83 with its default max_retries = 3. -/
def create_sftp_connection (connectAttempt : Nat → Option ConnError) :
    Nat × Option ConnError :=
  create_sftp_connection_go connectAttempt [0, 1, 2]

/-- The on-disk contents of the progress file observable if the process stops
at an arbitrary point during web_ui.save_progress lines 41-42: the file is
opened with mode w, which truncates it, and the serialized mapping is then
written out; so the possible states are the old contents, and every prefix of
the new contents beginning with the truncated empty file.  File contents are
modelled as character lists. -/
def save_progress_crash_states (old new : List Char) : List (List Char) :=
  old :: (List.range (new.length + 1)).map (fun n => new.take n)

/-- The same crash states for web_ui.save_download_progress lines 246-247,
which writes the download progress file the same way. -/
def save_download_progress_crash_states (old new : List Char) : List (List Char) :=
  old :: (List.range (new.length + 1)).map (fun n => new.take n)

/-- Modelled from the spec for the refinement comparison of claim C2: the
crash states a write-temp-then-replace save would expose on the real file,
namely only the old complete contents or the new complete contents. -/
def atomic_save_crash_states (old new : List Char) : List (List Char) :=
  [old, new]

/-- Outcomes of the steps of an archive-pipeline run: whether the compress
step, the single archive transfer, the extract step and the two archive
deletions succeed. -/
structure ArchiveOracle where
  compressOk : Bool
  transferOk : Bool
  extractOk : Bool
  removeRemoteOk : Bool
  removeLocalOk : Bool
deriving DecidableEq, Repr

/-- Stage at which an archive-pipeline run aborts with an error return. -/
inductive PStage where
  | compress
  | transfer
  | extract
deriving DecidableEq, Repr

/-- Result lines of the archive pipelines, abstracted from the message
strings of the source. -/
inductive PLine where
  | compressed
  | transferred
  | extracted
  | cleanedRemote
  | cleanedLocal
  | cleanupWarn
  | allDone
deriving DecidableEq, Repr

/-- Outcome of an archive-pipeline run: an error return naming the failed
stage, or the final result lines together with the event trace. -/
inductive PipeResult where
  | error (stage : PStage)
  | ok (lines : List PLine) (events : List Event)
deriving DecidableEq, Repr

/-- web_ui.upload_compressed_folder lines 737-844.  Create the local archive,
connect, upload the archive, extract it remotely; each of those failures is an
error return.  The cleanup of lines 819-829 is a single try block: the remote
deletion is attempted first, and only if it succeeds is the local deletion
attempted; any exception in the block appends one warning line and the
pipeline still finishes with its final success line. -/
def upload_compressed_folder (o : ArchiveOracle) : PipeResult :=
  if o.compressOk = false then PipeResult.error PStage.compress
  else if o.transferOk = false then PipeResult.error PStage.transfer
  else if o.extractOk = false then PipeResult.error PStage.extract
  else
    let lines0 := [PLine.compressed, PLine.transferred, PLine.extracted]
    let evs0 := [Event.compressLocal, Event.connect, Event.putArchive, Event.extractRemote]
    if o.removeRemoteOk then
      if o.removeLocalOk then
        PipeResult.ok (lines0 ++ [PLine.cleanedRemote, PLine.cleanedLocal, PLine.allDone])
          (evs0 ++ [Event.removeRemote, Event.removeLocal])
      else
        PipeResult.ok (lines0 ++ [PLine.cleanedRemote, PLine.cleanupWarn, PLine.allDone])
          (evs0 ++ [Event.removeRemote, Event.removeLocal])
    else
      PipeResult.ok (lines0 ++ [PLine.cleanupWarn, PLine.allDone])
        (evs0 ++ [Event.removeRemote])

/-- web_ui.download_compressed_folder lines 467-593.  Connect, create the
remote archive, download it; each of those failures is an error return.  The
remote archive is then deleted in its own try block at lines 547-552, before
the extraction; the extraction failure is an error return; the local archive
is deleted in its own try block at lines 573-578; each deletion failure only
appends a warning line. -/
def download_compressed_folder (o : ArchiveOracle) : PipeResult :=
  if o.compressOk = false then PipeResult.error PStage.compress
  else if o.transferOk = false then PipeResult.error PStage.transfer
  else
    let lines1 := [PLine.compressed, PLine.transferred]
      ++ (if o.removeRemoteOk then [PLine.cleanedRemote] else [PLine.cleanupWarn])
    let evs1 := [Event.connect, Event.compressRemote, Event.getArchive, Event.removeRemote]
    if o.extractOk = false then PipeResult.error PStage.extract
    else
      PipeResult.ok (lines1 ++ [PLine.extracted]
          ++ (if o.removeLocalOk then [PLine.cleanedLocal] else [PLine.cleanupWarn])
          ++ [PLine.allDone])
        (evs1 ++ [Event.extractLocal, Event.removeLocal])

/-- Replay of one event on the on-disk progress mapping of the running
direction: saves and clears write the file, everything else leaves it alone. -/
def applyEvent (store : ProgressMap) : Event → ProgressMap
  | Event.save root c =>
    setKey store root c
  | Event.clear root =>
    if (lookupKey store root).isSome then delKey store root else store
  | _ => store

/-- The on-disk progress mapping after a crash that happens right after the
given prefix of the event trace has executed, starting from store. -/
def storeAfter (store : ProgressMap) (evs : List Event) : ProgressMap :=
  evs.foldl applyEvent store

/-- The payloads of the save events of the given root, in trace order. -/
def savePayloads (root : String) (evs : List Event) : List (List String) :=
  evs.filterMap (fun e =>
    match e with
    | Event.save r c => if r = root then some c else none
    | _ => none)

/-- A chain of completed lists each extending the previous one by a single
appended identifier, starting from c0: the shape of the successive save
payloads of one session. -/
def ChainFrom (c0 : List String) : List (List String) → Prop
  | [] => True
  | p :: ps => (∃ x, p = c0 ++ [x]) ∧ ChainFrom p ps

/-- Last element of a payload chain, or the starting list when it is empty. -/
def chainLast (c0 : List String) : List (List String) → List String
  | [] => c0
  | p :: ps => chainLast p ps

/-- Whether an event is a per-item transfer call. -/
def isXfer : Event → Bool
  | Event.put _ => true
  | Event.getFile _ => true
  | _ => false

/-- Whether an event writes the progress file. -/
def isSaveOrClear : Event → Bool
  | Event.save _ _ => true
  | Event.clear _ => true
  | _ => false

/-- Events that never touch the progress file: no save and no clear. -/
def noSaveClear (evs : List Event) : Prop :=
  ∀ e ∈ evs, isSaveOrClear e = false

/-- The canonical run of the per-item loop, accumulating fresh lines and
events; transfer_loop is this run with the initial lines and events
prepended. -/
def loopRun (dl : Bool) (oracle : String → Nat → Bool) (root : String) :
    List (String × String) → Bool → List String → ProgressMap → LoopState
  | [], chan, c, st => { chan := chan, completed := c, store := st, lines := [], events := [] }
  | it :: rest, chan, c, st =>
    let out := attemptRun dl (oracle it.1) root it.1 [0, 1, 2] chan c st
    let b := loopRun dl oracle root rest out.chan out.completed out.store
    { chan := b.chan, completed := b.completed, store := b.store,
      lines := (if out.ok then Line.ok it.2 else Line.fail it.2) :: b.lines,
      events := out.events ++ b.events }

/-- Head of a list of events, falling back to what follows the list. -/
def headOr (l : List Event) (follow : Option Event) : Option Event :=
  match l with
  | [] => follow
  | e :: _ => some e

/-- The pair e, next satisfies P for every adjacent pair of the trace, where
the element following the last one is the given follow. -/
def AdjFrom (P : Event → Option Event → Prop) : List Event → Option Event → Prop
  | [], _ => True
  | e :: rest, follow => P e (headOr rest follow) ∧ AdjFrom P rest follow

/-- Local successor discipline of the per-item retry loop: a connect is
immediately followed by the transfer call it was made for; a channel discard
is immediately followed by the fixed 2 second sleep; the sleep is immediately
followed by the lazy fresh connect of the next attempt; a save is followed by
the next item or by nothing; a transfer call is followed by its save, by a
retry discard, by the next transfer or by nothing. -/
def StepOK (dl : Bool) : Event → Option Event → Prop
  | Event.connect, next => ∃ p, next = some (xferEvent dl p)
  | Event.closeChannel, next => next = some (Event.sleep 2)
  | Event.sleep n, next => n = 2 ∧ next = some Event.connect
  | Event.save _ _, next => next = none ∨ ∃ p, next = some (xferEvent dl p)
  | Event.put _, next =>
    next = none ∨ (∃ r c, next = some (Event.save r c)) ∨
      next = some Event.closeChannel ∨ ∃ q, next = some (xferEvent dl q)
  | Event.getFile _, next =>
    next = none ∨ (∃ r c, next = some (Event.save r c)) ∨
      next = some Event.closeChannel ∨ ∃ q, next = some (xferEvent dl q)
  | _, _ => True

/-- Whether the three attempts of range(3) give the item a successful
transfer: the attempt loop succeeds exactly when some attempt succeeds. -/
def attemptSucceeds (oracle : String → Nat → Bool) (item : String) : Bool :=
  oracle item 0 || oracle item 1 || oracle item 2

/-- What may follow the trace of one item of the loop: nothing, or the first
transfer call of the next item. -/
def XferFollow (dl : Bool) (follow : Option Event) : Prop :=
  follow = none ∨ ∃ p, follow = some (xferEvent dl p)

theorem lookupKey_setKey_self (m : ProgressMap) (k : String) (v : List String) :
    lookupKey (setKey m k v) k = some v := by
  induction m with
  | nil => simp [setKey, lookupKey]
  | cons p rest ih =>
    obtain ⟨a, b⟩ := p
    by_cases hak : a = k
    · subst hak; simp [setKey, lookupKey]
    · simp [setKey, lookupKey, hak, ih]

theorem lookupKey_setKey_ne (m : ProgressMap) (k k2 : String) (v : List String)
    (h : k2 ≠ k) : lookupKey (setKey m k v) k2 = lookupKey m k2 := by
  have hne : ¬ k = k2 := fun hh => h hh.symm
  induction m with
  | nil => simp [setKey, lookupKey, hne]
  | cons p rest ih =>
    obtain ⟨a, b⟩ := p
    by_cases hak : a = k
    · subst hak
      simp [setKey, lookupKey, hne]
    · simp [setKey, lookupKey, hak, ih]

theorem lookupKey_delKey_ne (m : ProgressMap) (k k2 : String)
    (h : k2 ≠ k) : lookupKey (delKey m k) k2 = lookupKey m k2 := by
  have hne : ¬ k = k2 := fun hh => h hh.symm
  induction m with
  | nil => simp [delKey]
  | cons p rest ih =>
    obtain ⟨a, b⟩ := p
    by_cases hak : a = k
    · subst hak
      simp [delKey, lookupKey, hne]
    · simp [delKey, lookupKey, hak, ih]

/-- C10: saving or clearing the progress of one root is frame-preserving on the
progress store: every other root keeps its stored completed set unchanged,
under all four of save_progress, clear_progress, save_download_progress and
clear_download_progress. -/
theorem progress_store_frame (m : ProgressMap) (k k2 : String) (v : List String)
    (h : k2 ≠ k) :
    lookupKey (save_progress m k v) k2 = lookupKey m k2 ∧
    lookupKey (clear_progress m k) k2 = lookupKey m k2 ∧
    lookupKey (save_download_progress m k v) k2 = lookupKey m k2 ∧
    lookupKey (clear_download_progress m k) k2 = lookupKey m k2 := by
  refine ⟨lookupKey_setKey_ne m k k2 v h, ?_, lookupKey_setKey_ne m k k2 v h, ?_⟩ <;>
    · simp only [clear_progress, clear_download_progress]
      by_cases hs : (lookupKey m k).isSome <;>
        simp [hs, lookupKey_delKey_ne m k k2 h]

theorem progress_store_frame_check :
    lookupKey (save_progress [("a", ["x"])] "a" ["x", "y"]) "b" =
      lookupKey [("a", ["x"])] "b" ∧
    lookupKey (clear_progress [("a", ["x"])] "a") "b" = lookupKey [("a", ["x"])] "b" ∧
    lookupKey (save_download_progress [("a", ["x"])] "a" ["x", "y"]) "b" =
      lookupKey [("a", ["x"])] "b" ∧
    lookupKey (clear_download_progress [("a", ["x"])] "a") "b" =
      lookupKey [("a", ["x"])] "b" :=
  progress_store_frame [("a", ["x"])] "a" "b" ["x", "y"] (by decide)

/-- C2 counterexample: interrupting save_progress (or save_download_progress)
between the truncating open and the completed write leaves the progress file in
a state that is neither the old complete contents nor the new complete
contents, refuting write-temp-then-replace atomicity. -/
theorem save_progress_not_atomic_cex :
    ¬ ((∀ s ∈ save_progress_crash_states "OLD".toList "NEW".toList,
          s = "OLD".toList ∨ s = "NEW".toList) ∧
       (∀ s ∈ save_download_progress_crash_states "OLD".toList "NEW".toList,
          s = "OLD".toList ∨ s = "NEW".toList)) := by decide

/-- C2 amended: both saves rewrite the progress file in place by truncating it
and writing the new serialized mapping, so an interruption leaves either the
old contents or some prefix of the new contents; in particular, whenever the
old and new contents are nonempty, the truncated empty file is a reachable
crash state that the write-temp-then-replace discipline would never expose. -/
theorem save_progress_inplace_rewrite (old new : List Char)
    (h1 : old ≠ []) (h2 : new ≠ []) :
    (∀ s ∈ save_progress_crash_states old new, s = old ∨ s <+: new) ∧
    (∀ s ∈ save_download_progress_crash_states old new, s = old ∨ s <+: new) ∧
    (∃ s ∈ save_progress_crash_states old new,
      s ∉ atomic_save_crash_states old new) ∧
    (∃ s ∈ save_download_progress_crash_states old new,
      s ∉ atomic_save_crash_states old new) := by
  have hmem : ∀ s ∈ old :: (List.range (new.length + 1)).map (fun n => new.take n),
      s = old ∨ s <+: new := by
    intro s hs
    simp only [List.mem_cons, List.mem_map, List.mem_range] at hs
    rcases hs with rfl | ⟨n, _, rfl⟩
    · exact Or.inl rfl
    · exact Or.inr (List.take_prefix n new)
  have hnil : ([] : List Char) ∈
      old :: (List.range (new.length + 1)).map (fun n => new.take n) := by
    simp only [List.mem_cons, List.mem_map, List.mem_range]
    exact Or.inr ⟨0, by omega, rfl⟩
  have hout : ([] : List Char) ∉ atomic_save_crash_states old new := by
    intro hmem
    simp only [atomic_save_crash_states, List.mem_cons, List.not_mem_nil, or_false] at hmem
    rcases hmem with hh | hh
    · exact h1 hh.symm
    · exact h2 hh.symm
  exact ⟨hmem, hmem, ⟨[], hnil, hout⟩, ⟨[], hnil, hout⟩⟩

theorem save_progress_inplace_rewrite_check :
    (∀ s ∈ save_progress_crash_states "OLD".toList "NEW".toList,
      s = "OLD".toList ∨ s <+: "NEW".toList) ∧
    (∀ s ∈ save_download_progress_crash_states "OLD".toList "NEW".toList,
      s = "OLD".toList ∨ s <+: "NEW".toList) ∧
    (∃ s ∈ save_progress_crash_states "OLD".toList "NEW".toList,
      s ∉ atomic_save_crash_states "OLD".toList "NEW".toList) ∧
    (∃ s ∈ save_download_progress_crash_states "OLD".toList "NEW".toList,
      s ∉ atomic_save_crash_states "OLD".toList "NEW".toList) :=
  save_progress_inplace_rewrite "OLD".toList "NEW".toList (by decide) (by decide)

/-- C4 counterexample: with an authentication failure raised on every connect
call, create_sftp_connection still makes three connect attempts and surfaces
the error only after the last one, so an authentication failure is retried
rather than surfaced immediately. -/
theorem connect_auth_retried_cex :
    (fun _ => some ConnError.auth : Nat → Option ConnError) 0 = some ConnError.auth ∧
    create_sftp_connection (fun _ => some ConnError.auth) = (3, some ConnError.auth) := by
  decide

/-- C4 amended: create_sftp_connection treats every connection failure alike,
authentication failures included: every failure short of the final attempt is
swallowed and retried, and when all three attempts raise the same error, three
connect calls are made and that error is surfaced only after the third. -/
theorem connect_retries_all_failures (connectAttempt : Nat → Option ConnError)
    (e : ConnError) (h : ∀ a, a < 3 → connectAttempt a = some e) :
    create_sftp_connection connectAttempt = (3, some e) := by
  have h0 := h 0 (by omega)
  have h1 := h 1 (by omega)
  have h2 := h 2 (by omega)
  simp [create_sftp_connection, create_sftp_connection_go, h0, h1, h2]

theorem connect_retries_all_failures_check :
    create_sftp_connection (fun _ => some ConnError.auth) = (3, some ConnError.auth) :=
  connect_retries_all_failures (fun _ => some ConnError.auth) ConnError.auth
    (fun _ _ => rfl)

/-- C9 counterexample: in upload_compressed_folder, when deleting the remote
archive copy fails, the deletion of the local archive copy is never attempted,
because both deletions live in one try block; so the two cleanups are not
independent, refuting the claim for the compressed upload pipeline. -/
theorem upload_cleanup_dependent_cex :
    upload_compressed_folder
        { compressOk := true, transferOk := true, extractOk := true,
          removeRemoteOk := false, removeLocalOk := true } =
      PipeResult.ok [PLine.compressed, PLine.transferred, PLine.extracted,
          PLine.cleanupWarn, PLine.allDone]
        [Event.compressLocal, Event.connect, Event.putArchive, Event.extractRemote,
          Event.removeRemote] ∧
    Event.removeLocal ∉ [Event.compressLocal, Event.connect, Event.putArchive,
        Event.extractRemote, Event.removeRemote] := by
  decide

/-- C6 counterexample: a download session whose persisted completed set already
covers the whole manifest still establishes a remote connection (the connect of
line 348 precedes the resume check), refuting the no-connection half of the
claim for the download direction. -/
theorem download_resume_connects_cex :
    Event.connect ∈ (download_folder (fun _ _ => true) [("R", ["R/a"])] "R"
      [("R/a", "a")] true).events := by
  decide

/-- C7 counterexample: download_folder clears its progress record by length
equality, not coverage: with one stale completed identifier on record and a
one-file manifest whose download fails every attempt, the record is cleared
although the manifest item was never completed. -/
theorem download_clear_miscount_cex :
    Event.clear "R" ∈ (download_folder (fun _ _ => false) [("R", ["stale"])] "R"
        [("R/a", "a")] true).events ∧
    "R/a" ∉ (download_folder (fun _ _ => false) [("R", ["stale"])] "R"
        [("R/a", "a")] true).completed := by
  decide

/-- C8 counterexample: a run started with resume disabled resets the in-memory
completed list, so its first successful save replaces the previously persisted
set by a smaller one although the manifest is not fully completed: the stored
set of root r shrinks from two identifiers to one. -/
theorem resume_disabled_shrinks_cex :
    lookupKey [("r", ["a", "b"])] "r" = some ["a", "b"] ∧
    lookupKey (upload_folder (fun x _ => x = "c") [("r", ["a", "b"])] "r"
        ["c", "d"] false).store "r" = some ["c"] ∧
    Event.clear "r" ∉ (upload_folder (fun x _ => x = "c") [("r", ["a", "b"])] "r"
        ["c", "d"] false).events := by
  decide

/-- C9 amended: after a run that reaches the extract step, the download
pipeline deletes the two archive copies in two independent best-effort blocks
(the remote one right after the transfer, the local one after the local
extraction), while the upload pipeline runs both deletions in one best-effort
block, so there the local deletion is attempted exactly when the remote one
succeeded; in both pipelines every cleanup failure only adds a warning line
and the run still finishes successfully. -/
theorem archive_cleanup_behavior (o : ArchiveOracle) (h1 : o.compressOk = true)
    (h2 : o.transferOk = true) (h3 : o.extractOk = true) :
    (∃ l e, download_compressed_folder o = PipeResult.ok l e ∧
      Event.removeRemote ∈ e ∧ Event.removeLocal ∈ e ∧ PLine.allDone ∈ l ∧
      (o.removeRemoteOk = false → PLine.cleanupWarn ∈ l) ∧
      (o.removeLocalOk = false → PLine.cleanupWarn ∈ l)) ∧
    (∃ l e, upload_compressed_folder o = PipeResult.ok l e ∧
      Event.removeRemote ∈ e ∧ PLine.allDone ∈ l ∧
      (Event.removeLocal ∈ e ↔ o.removeRemoteOk = true) ∧
      ((o.removeRemoteOk = false ∨ o.removeLocalOk = false) → PLine.cleanupWarn ∈ l)) := by
  obtain ⟨c, t, x, rr, rl⟩ := o
  simp only at h1 h2 h3
  subst h1; subst h2; subst h3
  cases rr <;> cases rl <;>
    exact ⟨⟨_, _, rfl, by decide, by decide, by decide, by decide, by decide⟩,
      ⟨_, _, rfl, by decide, by decide, by decide, by decide⟩⟩

theorem archive_cleanup_behavior_check :
    (∃ l e, download_compressed_folder
        { compressOk := true, transferOk := true, extractOk := true,
          removeRemoteOk := true, removeLocalOk := false } = PipeResult.ok l e ∧
      Event.removeRemote ∈ e ∧ Event.removeLocal ∈ e ∧ PLine.allDone ∈ l ∧
      (false = false → PLine.cleanupWarn ∈ l) ∧
      (false = false → PLine.cleanupWarn ∈ l)) ∧
    (∃ l e, upload_compressed_folder
        { compressOk := true, transferOk := true, extractOk := true,
          removeRemoteOk := true, removeLocalOk := false } = PipeResult.ok l e ∧
      Event.removeRemote ∈ e ∧ PLine.allDone ∈ l ∧
      (Event.removeLocal ∈ e ↔ true = true) ∧
      ((true = false ∨ false = false) → PLine.cleanupWarn ∈ l)) := by
  have h := archive_cleanup_behavior
    { compressOk := true, transferOk := true, extractOk := true,
      removeRemoteOk := true, removeLocalOk := false } rfl rfl rfl
  exact ⟨⟨h.1.choose, h.1.choose_spec.choose,
      h.1.choose_spec.choose_spec.1, h.1.choose_spec.choose_spec.2.1,
      h.1.choose_spec.choose_spec.2.2.1, h.1.choose_spec.choose_spec.2.2.2.1,
      fun _ => h.1.choose_spec.choose_spec.2.2.2.2.2 rfl,
      fun _ => h.1.choose_spec.choose_spec.2.2.2.2.2 rfl⟩, h.2⟩

@[simp] theorem xferEvent_inj (dl : Bool) (p q : String) :
    xferEvent dl p = xferEvent dl q ↔ p = q := by
  cases dl <;> simp [xferEvent]

@[simp] theorem xferEvent_isSaveOrClear (dl : Bool) (p : String) :
    isSaveOrClear (xferEvent dl p) = false := by
  cases dl <;> simp [xferEvent, isSaveOrClear]

@[simp] theorem xferEvent_isXfer (dl : Bool) (p : String) :
    isXfer (xferEvent dl p) = true := by
  cases dl <;> simp [xferEvent, isXfer]

@[simp] theorem xferEvent_ne_save (dl : Bool) (p r : String) (c : List String) :
    xferEvent dl p ≠ Event.save r c := by
  cases dl <;> simp [xferEvent]

@[simp] theorem save_ne_xferEvent (dl : Bool) (p r : String) (c : List String) :
    Event.save r c ≠ xferEvent dl p := by
  cases dl <;> simp [xferEvent]

@[simp] theorem xferEvent_ne_clear (dl : Bool) (p r : String) :
    xferEvent dl p ≠ Event.clear r := by
  cases dl <;> simp [xferEvent]

@[simp] theorem clear_ne_xferEvent (dl : Bool) (p r : String) :
    Event.clear r ≠ xferEvent dl p := by
  cases dl <;> simp [xferEvent]

@[simp] theorem xferEvent_ne_connect (dl : Bool) (p : String) :
    xferEvent dl p ≠ Event.connect := by
  cases dl <;> simp [xferEvent]

@[simp] theorem connect_ne_xferEvent (dl : Bool) (p : String) :
    Event.connect ≠ xferEvent dl p := by
  cases dl <;> simp [xferEvent]

@[simp] theorem xferEvent_ne_close (dl : Bool) (p : String) :
    xferEvent dl p ≠ Event.closeChannel := by
  cases dl <;> simp [xferEvent]

@[simp] theorem close_ne_xferEvent (dl : Bool) (p : String) :
    Event.closeChannel ≠ xferEvent dl p := by
  cases dl <;> simp [xferEvent]

@[simp] theorem xferEvent_ne_sleep (dl : Bool) (p : String) (n : Nat) :
    xferEvent dl p ≠ Event.sleep n := by
  cases dl <;> simp [xferEvent]

@[simp] theorem sleep_ne_xferEvent (dl : Bool) (p : String) (n : Nat) :
    Event.sleep n ≠ xferEvent dl p := by
  cases dl <;> simp [xferEvent]

theorem noSaveClear_nil : noSaveClear [] := by
  intro e he
  cases he

theorem noSaveClear_cons (e : Event) (t : List Event) (he : isSaveOrClear e = false)
    (ht : noSaveClear t) : noSaveClear (e :: t) := by
  intro f hf
  rcases List.mem_cons.mp hf with rfl | hf
  · exact he
  · exact ht f hf

theorem noSaveClear_append (a b : List Event) (ha : noSaveClear a) (hb : noSaveClear b) :
    noSaveClear (a ++ b) := by
  intro e he
  rcases List.mem_append.mp he with h | h
  · exact ha e h
  · exact hb e h

theorem noSaveClear_connEv (chan : Bool) :
    noSaveClear (if chan then [] else [Event.connect]) := by
  cases chan
  · exact noSaveClear_cons _ _ rfl noSaveClear_nil
  · exact noSaveClear_nil

theorem noSaveClear_retry_block (dl : Bool) (item : String) :
    noSaveClear [xferEvent dl item, Event.closeChannel, Event.sleep 2] := by
  refine noSaveClear_cons _ _ (by simp) (noSaveClear_cons _ _ rfl (noSaveClear_cons _ _ rfl noSaveClear_nil))

theorem savePayloads_nil (root : String) : savePayloads root [] = [] := rfl

theorem savePayloads_append (root : String) (a b : List Event) :
    savePayloads root (a ++ b) = savePayloads root a ++ savePayloads root b :=
  List.filterMap_append a b _

theorem savePayloads_cons_none (root : String) (e : Event) (t : List Event)
    (h : isSaveOrClear e = false) :
    savePayloads root (e :: t) = savePayloads root t := by
  cases e <;> simp_all [savePayloads, List.filterMap_cons, isSaveOrClear]

theorem savePayloads_of_noSaveClear (root : String) (evs : List Event)
    (h : noSaveClear evs) : savePayloads root evs = [] := by
  induction evs with
  | nil => rfl
  | cons e t ih =>
    have he := h e (List.mem_cons_self e t)
    have ht : noSaveClear t := fun f hf => h f (List.mem_cons_of_mem e hf)
    rw [savePayloads_cons_none root e t he]
    exact ih ht

theorem clear_not_mem_of_noSaveClear (evs : List Event) (h : noSaveClear evs) (r : String) :
    Event.clear r ∉ evs := by
  intro hmem
  have := h _ hmem
  simp [isSaveOrClear] at this

theorem savePayloads_cons_save_self (root : String) (c : List String) (t : List Event) :
    savePayloads root (Event.save root c :: t) = c :: savePayloads root t := by
  simp [savePayloads, List.filterMap_cons]

theorem attemptRun_single_eq (dl : Bool) (o : Nat → Bool) (root item : String)
    (a : Nat) (chan : Bool) (c : List String) (s : ProgressMap) :
    attemptRun dl o root item [a] chan c s =
      if o a = true then
        { events := (if chan then [] else [Event.connect]) ++
            [xferEvent dl item, Event.save root (c ++ [item])],
          chan := true, completed := c ++ [item],
          store := setKey s root (c ++ [item]), ok := true }
      else
        { events := (if chan then [] else [Event.connect]) ++ [xferEvent dl item],
          chan := true, completed := c, store := s, ok := false } := rfl

theorem attemptRun_cons_cons_eq (dl : Bool) (o : Nat → Bool) (root item : String)
    (a a2 : Nat) (rest2 : List Nat) (chan : Bool) (c : List String) (s : ProgressMap) :
    attemptRun dl o root item (a :: a2 :: rest2) chan c s =
      if o a = true then
        { events := (if chan then [] else [Event.connect]) ++
            [xferEvent dl item, Event.save root (c ++ [item])],
          chan := true, completed := c ++ [item],
          store := setKey s root (c ++ [item]), ok := true }
      else
        { events := (if chan then [] else [Event.connect]) ++
            [xferEvent dl item, Event.closeChannel, Event.sleep 2] ++
            (attemptRun dl o root item (a2 :: rest2) false c s).events,
          chan := (attemptRun dl o root item (a2 :: rest2) false c s).chan,
          completed := (attemptRun dl o root item (a2 :: rest2) false c s).completed,
          store := (attemptRun dl o root item (a2 :: rest2) false c s).store,
          ok := (attemptRun dl o root item (a2 :: rest2) false c s).ok } := rfl

theorem attemptRun_ok_shape (dl : Bool) (o : Nat → Bool) (root item : String) :
    ∀ (atts : List Nat) (chan : Bool) (c : List String) (s : ProgressMap),
      (attemptRun dl o root item atts chan c s).ok = true →
      (attemptRun dl o root item atts chan c s).completed = c ++ [item] ∧
      (attemptRun dl o root item atts chan c s).store = setKey s root (c ++ [item]) ∧
      ∃ pre, (attemptRun dl o root item atts chan c s).events =
          pre ++ [xferEvent dl item, Event.save root (c ++ [item])] ∧ noSaveClear pre := by
  intro atts
  induction atts with
  | nil =>
    intro chan c s h
    simp [attemptRun] at h
  | cons a rest ih =>
    intro chan c s h
    by_cases ha : o a = true
    · cases rest with
      | nil =>
        rw [attemptRun_single_eq, if_pos ha]
        exact ⟨rfl, rfl, ⟨if chan then [] else [Event.connect], rfl, noSaveClear_connEv chan⟩⟩
      | cons a2 rest2 =>
        rw [attemptRun_cons_cons_eq, if_pos ha]
        exact ⟨rfl, rfl, ⟨if chan then [] else [Event.connect], rfl, noSaveClear_connEv chan⟩⟩
    · cases rest with
      | nil =>
        rw [attemptRun_single_eq, if_neg ha] at h
        simp at h
      | cons a2 rest2 =>
        rw [attemptRun_cons_cons_eq, if_neg ha] at h ⊢
        obtain ⟨hc, hs, pre, hev, hpre⟩ := ih false c s h
        refine ⟨hc, hs, ?_⟩
        refine ⟨(if chan then [] else [Event.connect]) ++
          [xferEvent dl item, Event.closeChannel, Event.sleep 2] ++ pre, ?_, ?_⟩
        · simp only [hev]
          simp [List.append_assoc]
        · exact noSaveClear_append _ _ (noSaveClear_append _ _ (noSaveClear_connEv chan)
            (noSaveClear_retry_block dl item)) hpre

theorem attemptRun_fail_shape (dl : Bool) (o : Nat → Bool) (root item : String) :
    ∀ (atts : List Nat) (chan : Bool) (c : List String) (s : ProgressMap),
      (attemptRun dl o root item atts chan c s).ok = false →
      (attemptRun dl o root item atts chan c s).completed = c ∧
      (attemptRun dl o root item atts chan c s).store = s ∧
      noSaveClear (attemptRun dl o root item atts chan c s).events := by
  intro atts
  induction atts with
  | nil =>
    intro chan c s _
    exact ⟨rfl, rfl, noSaveClear_nil⟩
  | cons a rest ih =>
    intro chan c s h
    by_cases ha : o a = true
    · cases rest with
      | nil => rw [attemptRun_single_eq, if_pos ha] at h; simp at h
      | cons a2 rest2 => rw [attemptRun_cons_cons_eq, if_pos ha] at h; simp at h
    · cases rest with
      | nil =>
        rw [attemptRun_single_eq, if_neg ha]
        exact ⟨rfl, rfl, noSaveClear_append _ _ (noSaveClear_connEv chan)
          (noSaveClear_cons _ _ (by simp) noSaveClear_nil)⟩
      | cons a2 rest2 =>
        rw [attemptRun_cons_cons_eq, if_neg ha] at h ⊢
        obtain ⟨hc, hs, hns⟩ := ih false c s h
        exact ⟨hc, hs, noSaveClear_append _ _ (noSaveClear_append _ _ (noSaveClear_connEv chan)
          (noSaveClear_retry_block dl item)) hns⟩

theorem attemptRun_chan_true (dl : Bool) (o : Nat → Bool) (root item : String) :
    ∀ (atts : List Nat) (chan : Bool) (c : List String) (s : ProgressMap), atts ≠ [] →
      (attemptRun dl o root item atts chan c s).chan = true := by
  intro atts
  induction atts with
  | nil => intro chan c s h; exact absurd rfl h
  | cons a rest ih =>
    intro chan c s _
    by_cases ha : o a = true
    · cases rest with
      | nil => rw [attemptRun_single_eq, if_pos ha]
      | cons a2 rest2 => rw [attemptRun_cons_cons_eq, if_pos ha]
    · cases rest with
      | nil => rw [attemptRun_single_eq, if_neg ha]
      | cons a2 rest2 =>
        rw [attemptRun_cons_cons_eq, if_neg ha]
        exact ih false c s (by simp)

theorem attemptRun_ok_val (dl : Bool) (o : Nat → Bool) (root item : String)
    (chan : Bool) (c : List String) (s : ProgressMap) :
    (attemptRun dl o root item [0, 1, 2] chan c s).ok = (o 0 || o 1 || o 2) := by
  cases h0 : o 0 <;> cases h1 : o 1 <;> cases h2 : o 2 <;>
    simp [attemptRun_cons_cons_eq, attemptRun_single_eq, h0, h1, h2]

theorem attemptRun_payloads (dl : Bool) (o : Nat → Bool) (root item : String)
    (atts : List Nat) (chan : Bool) (c : List String) (s : ProgressMap) :
    savePayloads root (attemptRun dl o root item atts chan c s).events =
      if (attemptRun dl o root item atts chan c s).ok = true then [c ++ [item]] else [] := by
  by_cases hok : (attemptRun dl o root item atts chan c s).ok = true
  · obtain ⟨_, _, pre, hev, hpre⟩ := attemptRun_ok_shape dl o root item atts chan c s hok
    rw [if_pos hok, hev, savePayloads_append, savePayloads_of_noSaveClear root pre hpre]
    rw [savePayloads_cons_none root _ _ (by simp), savePayloads_cons_save_self]
    rfl
  · have hok2 : (attemptRun dl o root item atts chan c s).ok = false := by
      revert hok; cases (attemptRun dl o root item atts chan c s).ok <;> simp
    obtain ⟨_, _, hns⟩ := attemptRun_fail_shape dl o root item atts chan c s hok2
    rw [if_neg hok, savePayloads_of_noSaveClear root _ hns]

theorem attemptRun_clear_not_mem (dl : Bool) (o : Nat → Bool) (root item : String)
    (atts : List Nat) (chan : Bool) (c : List String) (s : ProgressMap) (r : String) :
    Event.clear r ∉ (attemptRun dl o root item atts chan c s).events := by
  by_cases hok : (attemptRun dl o root item atts chan c s).ok = true
  · obtain ⟨_, _, pre, hev, hpre⟩ := attemptRun_ok_shape dl o root item atts chan c s hok
    rw [hev]
    intro hmem
    rcases List.mem_append.mp hmem with hm | hm
    · exact clear_not_mem_of_noSaveClear pre hpre r hm
    · rcases List.mem_cons.mp hm with he | hm2
      · simp at he
      · rcases List.mem_cons.mp hm2 with he | hm3
        · exact Event.noConfusion he
        · cases hm3
  · have hok2 : (attemptRun dl o root item atts chan c s).ok = false := by
      revert hok; cases (attemptRun dl o root item atts chan c s).ok <;> simp
    obtain ⟨_, _, hns⟩ := attemptRun_fail_shape dl o root item atts chan c s hok2
    exact clear_not_mem_of_noSaveClear _ hns r

theorem attemptRun_head_true (dl : Bool) (o : Nat → Bool) (root item : String)
    (a : Nat) (atts : List Nat) (c : List String) (s : ProgressMap) :
    (attemptRun dl o root item (a :: atts) true c s).events.head? =
      some (xferEvent dl item) := by
  cases hb : o a <;> cases atts <;> simp [attemptRun, hb]

theorem attemptRun_head_false (dl : Bool) (o : Nat → Bool) (root item : String)
    (a : Nat) (atts : List Nat) (c : List String) (s : ProgressMap) :
    (attemptRun dl o root item (a :: atts) false c s).events.head? =
      some Event.connect := by
  cases hb : o a <;> cases atts <;> simp [attemptRun, hb]

theorem chainFrom_nil (c0 : List String) : ChainFrom c0 [] := trivial

theorem chainFrom_cons (c0 p : List String) (ps : List (List String)) :
    ChainFrom c0 (p :: ps) ↔ (∃ x, p = c0 ++ [x]) ∧ ChainFrom p ps := Iff.rfl

theorem chainLast_nil (c0 : List String) : chainLast c0 [] = c0 := rfl

theorem chainLast_cons (c0 p : List String) (ps : List (List String)) :
    chainLast c0 (p :: ps) = chainLast p ps := rfl

theorem transfer_loop_eq_loopRun (dl : Bool) (oracle : String → Nat → Bool) (root : String) :
    ∀ (items : List (String × String)) (chan : Bool) (c : List String) (st : ProgressMap)
      (l : List Line) (e : List Event),
      transfer_loop dl oracle root items
          { chan := chan, completed := c, store := st, lines := l, events := e } =
        { chan := (loopRun dl oracle root items chan c st).chan,
          completed := (loopRun dl oracle root items chan c st).completed,
          store := (loopRun dl oracle root items chan c st).store,
          lines := l ++ (loopRun dl oracle root items chan c st).lines,
          events := e ++ (loopRun dl oracle root items chan c st).events } := by
  intro items
  induction items with
  | nil =>
    intro chan c st l e
    simp [transfer_loop, loopRun]
  | cons it rest ih =>
    intro chan c st l e
    have hstep : transfer_loop dl oracle root (it :: rest)
        { chan := chan, completed := c, store := st, lines := l, events := e } =
        transfer_loop dl oracle root rest (runItem dl oracle root
          { chan := chan, completed := c, store := st, lines := l, events := e } it) := rfl
    rw [hstep]
    simp only [runItem]
    rw [ih]
    simp only [loopRun]
    simp [List.append_assoc]

theorem loopRun_clear_not_mem (dl : Bool) (oracle : String → Nat → Bool) (root : String) :
    ∀ (items : List (String × String)) (chan : Bool) (c : List String) (st : ProgressMap)
      (r : String), Event.clear r ∉ (loopRun dl oracle root items chan c st).events := by
  intro items
  induction items with
  | nil =>
    intro chan c st r h
    simp [loopRun] at h
  | cons it rest ih =>
    intro chan c st r h
    simp only [loopRun] at h
    rcases List.mem_append.mp h with hm | hm
    · exact attemptRun_clear_not_mem dl (oracle it.1) root it.1 [0, 1, 2] chan c st r hm
    · exact ih _ _ _ r hm

theorem loopRun_chain (dl : Bool) (oracle : String → Nat → Bool) (root : String) :
    ∀ (items : List (String × String)) (chan : Bool) (c : List String) (st : ProgressMap),
      ChainFrom c (savePayloads root (loopRun dl oracle root items chan c st).events) ∧
      (loopRun dl oracle root items chan c st).completed =
        chainLast c (savePayloads root (loopRun dl oracle root items chan c st).events) := by
  intro items
  induction items with
  | nil =>
    intro chan c st
    exact ⟨trivial, rfl⟩
  | cons it rest ih =>
    intro chan c st
    by_cases hok : (attemptRun dl (oracle it.1) root it.1 [0, 1, 2] chan c st).ok = true
    · obtain ⟨hc, _, _⟩ := attemptRun_ok_shape dl (oracle it.1) root it.1 [0, 1, 2] chan c st hok
      simp only [loopRun, savePayloads_append, attemptRun_payloads, hok, if_true, hc,
        List.singleton_append]
      rw [chainFrom_cons, chainLast_cons]
      exact ⟨⟨⟨it.1, rfl⟩, (ih _ _ _).1⟩, (ih _ _ _).2⟩
    · have hok2 : (attemptRun dl (oracle it.1) root it.1 [0, 1, 2] chan c st).ok = false := by
        revert hok; cases (attemptRun dl (oracle it.1) root it.1 [0, 1, 2] chan c st).ok <;> simp
      obtain ⟨hc, _, _⟩ := attemptRun_fail_shape dl (oracle it.1) root it.1 [0, 1, 2] chan c st hok2
      simp only [loopRun, savePayloads_append, attemptRun_payloads, hok2, hc, List.nil_append,
        Bool.false_eq_true, if_false]
      exact ih _ _ _

theorem savePayloads_cons_save_ne (root r : String) (c : List String) (t : List Event)
    (h : r ≠ root) : savePayloads root (Event.save r c :: t) = savePayloads root t := by
  simp [savePayloads, List.filterMap_cons, h]

theorem savePayloads_cons_clear (root r : String) (t : List Event) :
    savePayloads root (Event.clear r :: t) = savePayloads root t := by
  simp [savePayloads, List.filterMap_cons]

theorem chainFrom_append_left (c0 : List String) :
    ∀ (ps qs : List (List String)), ChainFrom c0 (ps ++ qs) → ChainFrom c0 ps := by
  intro ps
  induction ps generalizing c0 with
  | nil => intro qs _; trivial
  | cons p ps ih =>
    intro qs h
    rw [List.cons_append, chainFrom_cons] at h
    exact ⟨h.1, ih p qs h.2⟩

theorem chainFrom_init_sub_last (c0 : List String) :
    ∀ (ps : List (List String)), ChainFrom c0 ps → ∀ x ∈ c0, x ∈ chainLast c0 ps := by
  intro ps
  induction ps generalizing c0 with
  | nil => intro _ x hx; exact hx
  | cons p ps ih =>
    intro h x hx
    rw [chainFrom_cons] at h
    obtain ⟨⟨y, hy⟩, hc⟩ := h
    rw [chainLast_cons]
    apply ih p hc
    rw [hy]
    exact List.mem_append.mpr (Or.inl hx)

theorem chainFrom_mem_sub_last (c0 : List String) :
    ∀ (ps : List (List String)), ChainFrom c0 ps → ∀ p ∈ ps, ∀ x ∈ p, x ∈ chainLast c0 ps := by
  intro ps
  induction ps generalizing c0 with
  | nil => intro _ p hp; cases hp
  | cons q ps ih =>
    intro h p hp x hx
    rw [chainFrom_cons] at h
    rw [chainLast_cons]
    rcases List.mem_cons.mp hp with rfl | hp2
    · exact chainFrom_init_sub_last p ps h.2 x hx
    · exact ih q h.2 p hp2 x hx

theorem chainFrom_last_mono (c0 : List String) :
    ∀ (ps qs : List (List String)), ChainFrom c0 (ps ++ qs) →
      ∀ x ∈ chainLast c0 ps, x ∈ chainLast c0 (ps ++ qs) := by
  intro ps
  induction ps generalizing c0 with
  | nil =>
    intro qs h x hx
    exact chainFrom_init_sub_last c0 qs h x hx
  | cons p ps ih =>
    intro qs h x hx
    rw [List.cons_append, chainFrom_cons] at h
    rw [chainLast_cons] at hx
    rw [List.cons_append, chainLast_cons]
    exact ih p qs h.2 x hx

theorem chainLast_ne_nil (a b : List String) :
    ∀ ps : List (List String), ps ≠ [] → chainLast a ps = chainLast b ps := by
  intro ps
  cases ps with
  | nil => intro h; exact absurd rfl h
  | cons p ps => intro _; rw [chainLast_cons, chainLast_cons]

theorem storeAfter_nil (s0 : ProgressMap) : storeAfter s0 [] = s0 := rfl

theorem storeAfter_cons (s0 : ProgressMap) (e : Event) (evs : List Event) :
    storeAfter s0 (e :: evs) = storeAfter (applyEvent s0 e) evs := rfl

theorem storeAfter_append (s0 : ProgressMap) (a b : List Event) :
    storeAfter s0 (a ++ b) = storeAfter (storeAfter s0 a) b :=
  List.foldl_append applyEvent s0 a b

theorem lookup_storeAfter_no_save (root : String) :
    ∀ (evs : List Event) (s0 : ProgressMap), Event.clear root ∉ evs →
      savePayloads root evs = [] →
      lookupKey (storeAfter s0 evs) root = lookupKey s0 root := by
  intro evs
  induction evs with
  | nil => intro s0 _ _; rfl
  | cons e rest ih =>
    intro s0 hnc hsp
    have hnc2 : Event.clear root ∉ rest := fun hm => hnc (List.mem_cons_of_mem e hm)
    rw [storeAfter_cons]
    cases e with
    | save r c =>
      by_cases hr : r = root
      · subst hr
        rw [savePayloads_cons_save_self] at hsp
        simp at hsp
      · rw [savePayloads_cons_save_ne root r c rest hr] at hsp
        calc lookupKey (storeAfter (applyEvent s0 (Event.save r c)) rest) root
            = lookupKey (applyEvent s0 (Event.save r c)) root := ih _ hnc2 hsp
          _ = lookupKey s0 root := by
              simp only [applyEvent]
              exact lookupKey_setKey_ne s0 r root c (fun hh => hr hh.symm)
    | clear r =>
      have hr : r ≠ root := by
        intro hh
        exact hnc (by rw [hh]; exact List.mem_cons_self _ _)
      rw [savePayloads_cons_clear] at hsp
      calc lookupKey (storeAfter (applyEvent s0 (Event.clear r)) rest) root
          = lookupKey (applyEvent s0 (Event.clear r)) root := ih _ hnc2 hsp
        _ = lookupKey s0 root := by
            simp only [applyEvent]
            by_cases hsome : (lookupKey s0 r).isSome <;>
              simp [hsome, lookupKey_delKey_ne s0 r root (fun hh => hr hh.symm)]
    | connect =>
      exact ih _ hnc2 (by rw [savePayloads_cons_none root (Event.connect) rest rfl] at hsp; exact hsp)
    | put p =>
      exact ih _ hnc2 (by rw [savePayloads_cons_none root (Event.put p) rest rfl] at hsp; exact hsp)
    | getFile p =>
      exact ih _ hnc2 (by rw [savePayloads_cons_none root (Event.getFile p) rest rfl] at hsp; exact hsp)
    | closeChannel =>
      exact ih _ hnc2 (by rw [savePayloads_cons_none root (Event.closeChannel) rest rfl] at hsp; exact hsp)
    | sleep n =>
      exact ih _ hnc2 (by rw [savePayloads_cons_none root (Event.sleep n) rest rfl] at hsp; exact hsp)
    | compressLocal =>
      exact ih _ hnc2 (by rw [savePayloads_cons_none root (Event.compressLocal) rest rfl] at hsp; exact hsp)
    | compressRemote =>
      exact ih _ hnc2 (by rw [savePayloads_cons_none root (Event.compressRemote) rest rfl] at hsp; exact hsp)
    | putArchive =>
      exact ih _ hnc2 (by rw [savePayloads_cons_none root (Event.putArchive) rest rfl] at hsp; exact hsp)
    | getArchive =>
      exact ih _ hnc2 (by rw [savePayloads_cons_none root (Event.getArchive) rest rfl] at hsp; exact hsp)
    | extractRemote =>
      exact ih _ hnc2 (by rw [savePayloads_cons_none root (Event.extractRemote) rest rfl] at hsp; exact hsp)
    | extractLocal =>
      exact ih _ hnc2 (by rw [savePayloads_cons_none root (Event.extractLocal) rest rfl] at hsp; exact hsp)
    | removeRemote =>
      exact ih _ hnc2 (by rw [savePayloads_cons_none root (Event.removeRemote) rest rfl] at hsp; exact hsp)
    | removeLocal =>
      exact ih _ hnc2 (by rw [savePayloads_cons_none root (Event.removeLocal) rest rfl] at hsp; exact hsp)

theorem lookup_storeAfter_last_save (root : String) :
    ∀ (evs : List Event) (s0 : ProgressMap), Event.clear root ∉ evs →
      savePayloads root evs ≠ [] →
      lookupKey (storeAfter s0 evs) root =
        some (chainLast [] (savePayloads root evs)) := by
  intro evs
  induction evs with
  | nil => intro s0 _ hsp; exact absurd rfl hsp
  | cons e rest ih =>
    intro s0 hnc hsp
    have hnc2 : Event.clear root ∉ rest := fun hm => hnc (List.mem_cons_of_mem e hm)
    rw [storeAfter_cons]
    cases e with
    | save r c =>
      by_cases hr : r = root
      · rw [hr]
        rw [savePayloads_cons_save_self, chainLast_cons]
        by_cases hrest : savePayloads root rest = []
        · rw [hrest, chainLast_nil]
          calc lookupKey (storeAfter (applyEvent s0 (Event.save root c)) rest) root
              = lookupKey (applyEvent s0 (Event.save root c)) root :=
                lookup_storeAfter_no_save root rest _ hnc2 hrest
            _ = some c := by
                simp only [applyEvent]
                exact lookupKey_setKey_self s0 root c
        · rw [chainLast_ne_nil c [] _ hrest]
          exact ih _ hnc2 hrest
      · rw [savePayloads_cons_save_ne root r c rest hr] at hsp ⊢
        exact ih _ hnc2 hsp
    | clear r =>
      rw [savePayloads_cons_clear] at hsp ⊢
      exact ih _ hnc2 hsp
    | connect =>
      rw [savePayloads_cons_none root Event.connect rest rfl] at hsp ⊢
      exact ih _ hnc2 hsp
    | put p =>
      rw [savePayloads_cons_none root (Event.put p) rest rfl] at hsp ⊢
      exact ih _ hnc2 hsp
    | getFile p =>
      rw [savePayloads_cons_none root (Event.getFile p) rest rfl] at hsp ⊢
      exact ih _ hnc2 hsp
    | closeChannel =>
      rw [savePayloads_cons_none root Event.closeChannel rest rfl] at hsp ⊢
      exact ih _ hnc2 hsp
    | sleep n =>
      rw [savePayloads_cons_none root (Event.sleep n) rest rfl] at hsp ⊢
      exact ih _ hnc2 hsp
    | compressLocal =>
      rw [savePayloads_cons_none root Event.compressLocal rest rfl] at hsp ⊢
      exact ih _ hnc2 hsp
    | compressRemote =>
      rw [savePayloads_cons_none root Event.compressRemote rest rfl] at hsp ⊢
      exact ih _ hnc2 hsp
    | putArchive =>
      rw [savePayloads_cons_none root Event.putArchive rest rfl] at hsp ⊢
      exact ih _ hnc2 hsp
    | getArchive =>
      rw [savePayloads_cons_none root Event.getArchive rest rfl] at hsp ⊢
      exact ih _ hnc2 hsp
    | extractRemote =>
      rw [savePayloads_cons_none root Event.extractRemote rest rfl] at hsp ⊢
      exact ih _ hnc2 hsp
    | extractLocal =>
      rw [savePayloads_cons_none root Event.extractLocal rest rfl] at hsp ⊢
      exact ih _ hnc2 hsp
    | removeRemote =>
      rw [savePayloads_cons_none root Event.removeRemote rest rfl] at hsp ⊢
      exact ih _ hnc2 hsp
    | removeLocal =>
      rw [savePayloads_cons_none root Event.removeLocal rest rfl] at hsp ⊢
      exact ih _ hnc2 hsp

theorem loopRun_lines (dl : Bool) (oracle : String → Nat → Bool) (root : String) :
    ∀ (items : List (String × String)) (chan : Bool) (c : List String) (st : ProgressMap),
      (loopRun dl oracle root items chan c st).lines =
        items.map (fun it => if attemptSucceeds oracle it.1 = true then Line.ok it.2
          else Line.fail it.2) := by
  intro items
  induction items with
  | nil => intro chan c st; rfl
  | cons it rest ih =>
    intro chan c st
    have hov : (attemptRun dl (oracle it.1) root it.1 [0, 1, 2] chan c st).ok =
        attemptSucceeds oracle it.1 := attemptRun_ok_val dl (oracle it.1) root it.1 chan c st
    by_cases hs : attemptSucceeds oracle it.1 = true
    · have hok : (attemptRun dl (oracle it.1) root it.1 [0, 1, 2] chan c st).ok = true := by
        rw [hov]; exact hs
      simp [loopRun, hok, ih, hs]
    · have hok : (attemptRun dl (oracle it.1) root it.1 [0, 1, 2] chan c st).ok = false := by
        rw [hov]; exact Bool.not_eq_true _ ▸ (Bool.of_not_eq_true hs)
      simp [loopRun, hok, ih, hs]

theorem loopRun_completed (dl : Bool) (oracle : String → Nat → Bool) (root : String) :
    ∀ (items : List (String × String)) (chan : Bool) (c : List String) (st : ProgressMap),
      (loopRun dl oracle root items chan c st).completed =
        c ++ (items.filter (fun it => attemptSucceeds oracle it.1)).map Prod.fst := by
  intro items
  induction items with
  | nil => intro chan c st; simp [loopRun]
  | cons it rest ih =>
    intro chan c st
    have hov : (attemptRun dl (oracle it.1) root it.1 [0, 1, 2] chan c st).ok =
        attemptSucceeds oracle it.1 := attemptRun_ok_val dl (oracle it.1) root it.1 chan c st
    by_cases hs : attemptSucceeds oracle it.1 = true
    · have hok : (attemptRun dl (oracle it.1) root it.1 [0, 1, 2] chan c st).ok = true := by
        rw [hov]; exact hs
      obtain ⟨hc, _, _⟩ :=
        attemptRun_ok_shape dl (oracle it.1) root it.1 [0, 1, 2] chan c st hok
      simp [loopRun, hc, ih, hs]
    · have hok : (attemptRun dl (oracle it.1) root it.1 [0, 1, 2] chan c st).ok = false := by
        rw [hov]; exact Bool.of_not_eq_true hs
      obtain ⟨hc, _, _⟩ :=
        attemptRun_fail_shape dl (oracle it.1) root it.1 [0, 1, 2] chan c st hok
      simp [loopRun, hc, ih, hs]

theorem savePayloads_prefix (root : String) (a b : List Event) (h : a <+: b) :
    savePayloads root a <+: savePayloads root b := by
  obtain ⟨t, rfl⟩ := h
  exact ⟨savePayloads root t, (savePayloads_append root a t).symm⟩

theorem save_mem_payloads (root : String) (c : List String) (evs : List Event)
    (h : Event.save root c ∈ evs) : c ∈ savePayloads root evs := by
  rw [savePayloads, List.mem_filterMap]
  exact ⟨Event.save root c, h, by simp⟩

theorem loopRun_immediacy (dl : Bool) (oracle : String → Nat → Bool) (root : String) :
    ∀ (items : List (String × String)) (chan : Bool) (c : List String) (st : ProgressMap)
      (x : String), x ∈ (loopRun dl oracle root items chan c st).completed →
      x ∈ c ∨ ∃ pre suf cc, (loopRun dl oracle root items chan c st).events =
        pre ++ [xferEvent dl x, Event.save root cc] ++ suf ∧ x ∈ cc := by
  intro items
  induction items with
  | nil => intro chan c st x hx; exact Or.inl hx
  | cons it rest ih =>
    intro chan c st x hx
    simp only [loopRun] at hx ⊢
    rcases ih _ _ _ x hx with hx2 | ⟨pre, suf, cc, hev, hcc⟩
    · by_cases hok : (attemptRun dl (oracle it.1) root it.1 [0, 1, 2] chan c st).ok = true
      · obtain ⟨hc, _, pre0, hev0, _⟩ :=
          attemptRun_ok_shape dl (oracle it.1) root it.1 [0, 1, 2] chan c st hok
        rw [hc] at hx2
        rcases List.mem_append.mp hx2 with hxc | hxi
        · exact Or.inl hxc
        · have hxeq : x = it.1 := by simpa using hxi
          subst hxeq
          refine Or.inr ⟨pre0,
            (loopRun dl oracle root rest
              (attemptRun dl (oracle it.1) root it.1 [0, 1, 2] chan c st).chan
              (attemptRun dl (oracle it.1) root it.1 [0, 1, 2] chan c st).completed
              (attemptRun dl (oracle it.1) root it.1 [0, 1, 2] chan c st).store).events,
            c ++ [it.1], ?_, by simp⟩
          rw [hev0]
      · have hok2 : (attemptRun dl (oracle it.1) root it.1 [0, 1, 2] chan c st).ok = false :=
          Bool.of_not_eq_true hok
        obtain ⟨hc, _, _⟩ :=
          attemptRun_fail_shape dl (oracle it.1) root it.1 [0, 1, 2] chan c st hok2
        rw [hc] at hx2
        exact Or.inl hx2
    · refine Or.inr
        ⟨(attemptRun dl (oracle it.1) root it.1 [0, 1, 2] chan c st).events ++ pre,
          suf, cc, ?_, hcc⟩
      rw [hev]
      simp [List.append_assoc]

/-- C1: in the per-item transfer loops of upload_folder (dl false) and
download_folder (dl true), every item completed during the loop had its
transfer call immediately followed by a save of the whole progress record
containing it, before any later event; and after a crash at any point of the
loop, every identifier contained in a save that made it into the executed
prefix is present in the record loaded from the progress file. -/
theorem loop_persists_each_success (dl : Bool) (oracle : String → Nat → Bool)
    (root : String) (items : List (String × String)) (chan : Bool)
    (c0 : List String) (s0 : ProgressMap) :
    (∀ x, x ∈ (transfer_loop dl oracle root items
        { chan := chan, completed := c0, store := s0, lines := [], events := [] }).completed →
      x ∉ c0 →
      ∃ pre suf cc, (transfer_loop dl oracle root items
          { chan := chan, completed := c0, store := s0, lines := [], events := [] }).events =
        pre ++ [xferEvent dl x, Event.save root cc] ++ suf ∧ x ∈ cc) ∧
    (∀ k cc x, Event.save root cc ∈ ((transfer_loop dl oracle root items
          { chan := chan, completed := c0, store := s0, lines := [],
            events := [] }).events.take k) →
      x ∈ cc →
      x ∈ (lookupKey (storeAfter s0 ((transfer_loop dl oracle root items
          { chan := chan, completed := c0, store := s0, lines := [],
            events := [] }).events.take k)) root).getD []) := by
  rw [transfer_loop_eq_loopRun]
  simp only [List.nil_append]
  constructor
  · intro x hx hx0
    rcases loopRun_immediacy dl oracle root items chan c0 s0 x hx with h | h
    · exact absurd h hx0
    · exact h
  · intro k cc x hmem hx
    have hpre : (loopRun dl oracle root items chan c0 s0).events.take k <+:
        (loopRun dl oracle root items chan c0 s0).events :=
      List.take_prefix k _
    have hchain : ChainFrom c0
        (savePayloads root (loopRun dl oracle root items chan c0 s0).events) :=
      (loopRun_chain dl oracle root items chan c0 s0).1
    have hccmem : cc ∈ savePayloads root
        ((loopRun dl oracle root items chan c0 s0).events.take k) :=
      save_mem_payloads root cc _ hmem
    obtain ⟨t, ht⟩ := savePayloads_prefix root _ _ hpre
    have hchain2 : ChainFrom c0 (savePayloads root
        ((loopRun dl oracle root items chan c0 s0).events.take k)) :=
      chainFrom_append_left c0 _ t (ht ▸ hchain)
    have hxlast : x ∈ chainLast c0 (savePayloads root
        ((loopRun dl oracle root items chan c0 s0).events.take k)) :=
      chainFrom_mem_sub_last c0 _ hchain2 cc hccmem x hx
    have hnonnil : savePayloads root
        ((loopRun dl oracle root items chan c0 s0).events.take k) ≠ [] := by
      intro hh
      rw [hh] at hccmem
      cases hccmem
    have hnc : Event.clear root ∉
        (loopRun dl oracle root items chan c0 s0).events.take k := by
      intro hm
      exact loopRun_clear_not_mem dl oracle root items chan c0 s0 root
        (hpre.subset hm)
    rw [lookup_storeAfter_last_save root _ s0 hnc hnonnil]
    rw [chainLast_ne_nil [] c0 _ hnonnil]
    simpa using hxlast

theorem loop_persists_each_success_check :
    (∃ pre suf cc, (transfer_loop false (fun _ _ => true) "r" [("a", "a")]
        { chan := false, completed := [], store := [], lines := [], events := [] }).events =
      pre ++ [xferEvent false "a", Event.save "r" cc] ++ suf ∧ "a" ∈ cc) ∧
    "a" ∈ (lookupKey (storeAfter [] ((transfer_loop false (fun _ _ => true) "r" [("a", "a")]
        { chan := false, completed := [], store := [], lines := [],
          events := [] }).events.take 3)) "r").getD [] :=
  ⟨(loop_persists_each_success false (fun _ _ => true) "r" [("a", "a")] false [] []).1
      "a" (by decide) (by decide),
    (loop_persists_each_success false (fun _ _ => true) "r" [("a", "a")] false [] []).2
      3 ["a"] "a" (by decide) (by decide)⟩

theorem headOr_append (a b : List Event) (f : Option Event) :
    headOr (a ++ b) f = headOr a (headOr b f) := by
  cases a <;> simp [headOr]

theorem headOr_of_head? (l : List Event) (f : Option Event) (u : Event)
    (h : l.head? = some u) : headOr l f = some u := by
  cases l with
  | nil => simp at h
  | cons a t =>
    simp only [List.head?_cons, Option.some_inj] at h
    simp [headOr, h]

theorem adjFrom_nil (P : Event → Option Event → Prop) (f : Option Event) :
    AdjFrom P [] f := trivial

theorem adjFrom_cons (P : Event → Option Event → Prop) (e : Event) (rest : List Event)
    (f : Option Event) :
    AdjFrom P (e :: rest) f ↔ P e (headOr rest f) ∧ AdjFrom P rest f := Iff.rfl

theorem adjFrom_append (P : Event → Option Event → Prop) :
    ∀ (a b : List Event) (f : Option Event),
      AdjFrom P a (headOr b f) → AdjFrom P b f → AdjFrom P (a ++ b) f := by
  intro a
  induction a with
  | nil => intro b f _ h2; exact h2
  | cons e t ih =>
    intro b f h1 h2
    rw [List.cons_append, adjFrom_cons]
    rw [adjFrom_cons] at h1
    exact ⟨by rw [headOr_append]; exact h1.1, ih b f h1.2 h2⟩

theorem StepOK_connect (dl : Bool) (next : Option Event) :
    StepOK dl Event.connect next ↔ ∃ p, next = some (xferEvent dl p) := Iff.rfl

theorem StepOK_close (dl : Bool) (next : Option Event) :
    StepOK dl Event.closeChannel next ↔ next = some (Event.sleep 2) := Iff.rfl

theorem StepOK_sleep (dl : Bool) (n : Nat) (next : Option Event) :
    StepOK dl (Event.sleep n) next ↔ (n = 2 ∧ next = some Event.connect) := Iff.rfl

theorem StepOK_save (dl : Bool) (r : String) (c : List String) (next : Option Event) :
    StepOK dl (Event.save r c) next ↔
      (next = none ∨ ∃ p, next = some (xferEvent dl p)) := Iff.rfl

theorem StepOK_xferEvent (dl : Bool) (p : String) (next : Option Event) :
    StepOK dl (xferEvent dl p) next ↔
      (next = none ∨ (∃ r c, next = some (Event.save r c)) ∨
        next = some Event.closeChannel ∨ ∃ q, next = some (xferEvent dl q)) := by
  cases dl <;> exact Iff.rfl

theorem adjFrom_nil_iff (P : Event → Option Event → Prop) (f : Option Event) :
    AdjFrom P [] f ↔ True := Iff.rfl

theorem attemptRun_adj (dl : Bool) (o : Nat → Bool) (root item : String) :
    ∀ (atts : List Nat) (chan : Bool) (c : List String) (s : ProgressMap)
      (follow : Option Event), XferFollow dl follow →
      AdjFrom (StepOK dl) (attemptRun dl o root item atts chan c s).events follow := by
  intro atts
  induction atts with
  | nil => intro chan c s follow _; exact trivial
  | cons a rest ih =>
    intro chan c s follow hf
    cases rest with
    | nil =>
      rw [attemptRun_single_eq]
      by_cases ha : o a = true
      · rw [if_pos ha]
        rcases hf with rfl | ⟨p, rfl⟩ <;> cases chan <;>
          simp [adjFrom_cons, adjFrom_nil_iff, headOr, StepOK_connect, StepOK_close,
            StepOK_sleep, StepOK_save, StepOK_xferEvent]
      · rw [if_neg ha]
        rcases hf with rfl | ⟨p, rfl⟩ <;> cases chan <;>
          simp [adjFrom_cons, adjFrom_nil_iff, headOr, StepOK_connect, StepOK_close,
            StepOK_sleep, StepOK_save, StepOK_xferEvent]
    | cons a2 rest2 =>
      by_cases ha : o a = true
      · rw [attemptRun_cons_cons_eq, if_pos ha]
        rcases hf with rfl | ⟨p, rfl⟩ <;> cases chan <;>
          simp [adjFrom_cons, adjFrom_nil_iff, headOr, StepOK_connect, StepOK_close,
            StepOK_sleep, StepOK_save, StepOK_xferEvent]
      · rw [attemptRun_cons_cons_eq, if_neg ha]
        show AdjFrom (StepOK dl) ((if chan then [] else [Event.connect]) ++
          [xferEvent dl item, Event.closeChannel, Event.sleep 2] ++
          (attemptRun dl o root item (a2 :: rest2) false c s).events) follow
        have hhead := attemptRun_head_false dl o root item a2 rest2 c s
        cases hev : (attemptRun dl o root item (a2 :: rest2) false c s).events with
        | nil => rw [hev] at hhead; simp at hhead
        | cons u t =>
          rw [hev] at hhead
          simp only [List.head?_cons, Option.some_inj] at hhead
          subst hhead
          apply adjFrom_append
          · cases chan <;>
              simp [adjFrom_cons, adjFrom_nil_iff, headOr, StepOK_connect, StepOK_close,
                StepOK_sleep, StepOK_save, StepOK_xferEvent]
          · have hrec := ih false c s follow hf
            rw [hev] at hrec
            exact hrec

theorem loopRun_head_xfer (dl : Bool) (oracle : String → Nat → Bool) (root : String) :
    ∀ (items : List (String × String)) (c : List String) (st : ProgressMap),
      items ≠ [] →
      ∃ p, (loopRun dl oracle root items true c st).events.head? =
        some (xferEvent dl p) := by
  intro items c st hne
  cases items with
  | nil => exact absurd rfl hne
  | cons it rest =>
    refine ⟨it.1, ?_⟩
    simp only [loopRun]
    have h := attemptRun_head_true dl (oracle it.1) root it.1 0 [1, 2] c st
    cases hev : (attemptRun dl (oracle it.1) root it.1 [0, 1, 2] true c st).events with
    | nil => rw [hev] at h; simp at h
    | cons u t =>
      rw [hev] at h
      simp only [List.head?_cons, Option.some_inj] at h
      simp [h]

theorem loopRun_adj (dl : Bool) (oracle : String → Nat → Bool) (root : String) :
    ∀ (items : List (String × String)) (chan : Bool) (c : List String) (st : ProgressMap),
      AdjFrom (StepOK dl) (loopRun dl oracle root items chan c st).events none := by
  intro items
  induction items with
  | nil => intro chan c st; exact trivial
  | cons it rest ih =>
    intro chan c st
    simp only [loopRun]
    apply adjFrom_append
    · apply attemptRun_adj
      cases rest with
      | nil => exact Or.inl rfl
      | cons it2 rest2 =>
        have hchan : (attemptRun dl (oracle it.1) root it.1 [0, 1, 2] chan c st).chan = true :=
          attemptRun_chan_true dl (oracle it.1) root it.1 [0, 1, 2] chan c st (by simp)
        rw [hchan]
        obtain ⟨p, hp⟩ := loopRun_head_xfer dl oracle root (it2 :: rest2)
          (attemptRun dl (oracle it.1) root it.1 [0, 1, 2] chan c st).completed
          (attemptRun dl (oracle it.1) root it.1 [0, 1, 2] chan c st).store (by simp)
        exact Or.inr ⟨p, headOr_of_head? _ _ _ hp⟩
    · exact ih _ _ _

theorem countP_xfer_connEv (dl : Bool) (x : String) (chan : Bool) :
    List.countP (fun e => decide (e = xferEvent dl x))
      (if chan then [] else [Event.connect]) = 0 := by
  cases chan <;> simp

theorem countP_xfer_single (dl : Bool) (x item : String) :
    List.countP (fun e => decide (e = xferEvent dl x)) [xferEvent dl item] =
      if item = x then 1 else 0 := by
  by_cases h : item = x <;> simp [List.countP_cons, h]

theorem countP_xfer_save (dl : Bool) (x item root : String) (c2 : List String) :
    List.countP (fun e => decide (e = xferEvent dl x))
      [xferEvent dl item, Event.save root c2] = if item = x then 1 else 0 := by
  by_cases h : item = x <;> simp [List.countP_cons, h]

theorem countP_xfer_retry (dl : Bool) (x item : String) :
    List.countP (fun e => decide (e = xferEvent dl x))
      [xferEvent dl item, Event.closeChannel, Event.sleep 2] =
      if item = x then 1 else 0 := by
  by_cases h : item = x <;> simp [List.countP_cons, h]

theorem attemptRun_count_le (dl : Bool) (o : Nat → Bool) (root item : String) :
    ∀ (atts : List Nat) (chan : Bool) (c : List String) (s : ProgressMap) (x : String),
      List.countP (fun e => decide (e = xferEvent dl x))
        (attemptRun dl o root item atts chan c s).events ≤ atts.length := by
  intro atts
  induction atts with
  | nil => intro chan c s x; simp [attemptRun]
  | cons a rest ih =>
    intro chan c s x
    cases rest with
    | nil =>
      rw [attemptRun_single_eq]
      by_cases ha : o a = true
      · rw [if_pos ha]
        show List.countP _ ((if chan then [] else [Event.connect]) ++
          [xferEvent dl item, Event.save root (c ++ [item])]) ≤ 1
        rw [List.countP_append, countP_xfer_connEv, countP_xfer_save]
        split <;> simp
      · rw [if_neg ha]
        show List.countP _ ((if chan then [] else [Event.connect]) ++ [xferEvent dl item]) ≤ 1
        rw [List.countP_append, countP_xfer_connEv, countP_xfer_single]
        split <;> simp
    | cons a2 rest2 =>
      by_cases ha : o a = true
      · rw [attemptRun_cons_cons_eq, if_pos ha]
        show List.countP _ ((if chan then [] else [Event.connect]) ++
          [xferEvent dl item, Event.save root (c ++ [item])]) ≤ (a :: a2 :: rest2).length
        rw [List.countP_append, countP_xfer_connEv, countP_xfer_save]
        simp only [List.length_cons]
        split <;> omega
      · rw [attemptRun_cons_cons_eq, if_neg ha]
        show List.countP _ ((if chan then [] else [Event.connect]) ++
          [xferEvent dl item, Event.closeChannel, Event.sleep 2] ++
          (attemptRun dl o root item (a2 :: rest2) false c s).events) ≤
          (a :: a2 :: rest2).length
        rw [List.countP_append, List.countP_append, countP_xfer_connEv, countP_xfer_retry]
        have hrec := ih false c s x
        simp only [List.length_cons] at hrec ⊢
        split <;> omega

theorem attemptRun_count_ne (dl : Bool) (o : Nat → Bool) (root item : String) :
    ∀ (atts : List Nat) (chan : Bool) (c : List String) (s : ProgressMap) (x : String),
      x ≠ item →
      List.countP (fun e => decide (e = xferEvent dl x))
        (attemptRun dl o root item atts chan c s).events = 0 := by
  intro atts
  induction atts with
  | nil => intro chan c s x _; simp [attemptRun]
  | cons a rest ih =>
    intro chan c s x hx
    have hne : ¬ item = x := fun hh => hx hh.symm
    cases rest with
    | nil =>
      rw [attemptRun_single_eq]
      by_cases ha : o a = true
      · rw [if_pos ha]
        show List.countP _ ((if chan then [] else [Event.connect]) ++
          [xferEvent dl item, Event.save root (c ++ [item])]) = 0
        rw [List.countP_append, countP_xfer_connEv, countP_xfer_save, if_neg hne]
      · rw [if_neg ha]
        show List.countP _ ((if chan then [] else [Event.connect]) ++ [xferEvent dl item]) = 0
        rw [List.countP_append, countP_xfer_connEv, countP_xfer_single, if_neg hne]
    | cons a2 rest2 =>
      by_cases ha : o a = true
      · rw [attemptRun_cons_cons_eq, if_pos ha]
        show List.countP _ ((if chan then [] else [Event.connect]) ++
          [xferEvent dl item, Event.save root (c ++ [item])]) = 0
        rw [List.countP_append, countP_xfer_connEv, countP_xfer_save, if_neg hne]
      · rw [attemptRun_cons_cons_eq, if_neg ha]
        show List.countP _ ((if chan then [] else [Event.connect]) ++
          [xferEvent dl item, Event.closeChannel, Event.sleep 2] ++
          (attemptRun dl o root item (a2 :: rest2) false c s).events) = 0
        rw [List.countP_append, List.countP_append, countP_xfer_connEv, countP_xfer_retry,
          if_neg hne, ih false c s x hx]

theorem loopRun_count_zero (dl : Bool) (oracle : String → Nat → Bool) (root : String) :
    ∀ (items : List (String × String)) (chan : Bool) (c : List String) (st : ProgressMap)
      (x : String), x ∉ items.map Prod.fst →
      List.countP (fun e => decide (e = xferEvent dl x))
        (loopRun dl oracle root items chan c st).events = 0 := by
  intro items
  induction items with
  | nil => intro chan c st x _; simp [loopRun]
  | cons it rest ih =>
    intro chan c st x hx
    have hx1 : x ≠ it.1 := by
      intro hh
      exact hx (by rw [hh]; exact List.mem_map_of_mem Prod.fst (List.mem_cons_self it rest))
    have hx2 : x ∉ rest.map Prod.fst := by
      intro hh
      exact hx (List.mem_cons_of_mem _ hh)
    simp only [loopRun, List.countP_append]
    rw [attemptRun_count_ne dl (oracle it.1) root it.1 [0, 1, 2] chan c st x hx1,
      ih _ _ _ x hx2]

theorem loopRun_count_le (dl : Bool) (oracle : String → Nat → Bool) (root : String) :
    ∀ (items : List (String × String)) (chan : Bool) (c : List String) (st : ProgressMap)
      (x : String), (items.map Prod.fst).Nodup →
      List.countP (fun e => decide (e = xferEvent dl x))
        (loopRun dl oracle root items chan c st).events ≤ 3 := by
  intro items
  induction items with
  | nil => intro chan c st x _; simp [loopRun]
  | cons it rest ih =>
    intro chan c st x hnd
    rw [List.map_cons, List.nodup_cons] at hnd
    simp only [loopRun, List.countP_append]
    by_cases hx : x = it.1
    · have h1 := attemptRun_count_le dl (oracle it.1) root it.1 [0, 1, 2] chan c st x
      have h2 := loopRun_count_zero dl oracle root rest
        (attemptRun dl (oracle it.1) root it.1 [0, 1, 2] chan c st).chan
        (attemptRun dl (oracle it.1) root it.1 [0, 1, 2] chan c st).completed
        (attemptRun dl (oracle it.1) root it.1 [0, 1, 2] chan c st).store
        x (by rw [hx]; exact hnd.1)
      simp only [List.length_cons, List.length_nil] at h1
      omega
    · have h1 := attemptRun_count_ne dl (oracle it.1) root it.1 [0, 1, 2] chan c st x hx
      have h2 := ih (attemptRun dl (oracle it.1) root it.1 [0, 1, 2] chan c st).chan
        (attemptRun dl (oracle it.1) root it.1 [0, 1, 2] chan c st).completed
        (attemptRun dl (oracle it.1) root it.1 [0, 1, 2] chan c st).store x hnd.2
      omega

/-- C3: in the per-item loops of upload_folder (dl false) and download_folder
(dl true), each remaining file is transferred at most 3 times when the item
identifiers are distinct, and the trace obeys the retry discipline: every
channel discard is immediately followed by the fixed 2 second sleep, the sleep
is immediately followed by the lazily acquired fresh connect of the next
attempt, every connect is immediately followed by a transfer call, and a
transfer call is followed only by its save, by a discard, by the next transfer
call or by the end of the loop. -/
theorem loop_retry_policy (dl : Bool) (oracle : String → Nat → Bool) (root : String)
    (items : List (String × String)) (chan : Bool) (c0 : List String) (s0 : ProgressMap)
    (hnd : (items.map Prod.fst).Nodup) :
    (∀ x, List.countP (fun e => decide (e = xferEvent dl x))
        (transfer_loop dl oracle root items
          { chan := chan, completed := c0, store := s0, lines := [],
            events := [] }).events ≤ 3) ∧
    AdjFrom (StepOK dl) (transfer_loop dl oracle root items
      { chan := chan, completed := c0, store := s0, lines := [], events := [] }).events
      none := by
  rw [transfer_loop_eq_loopRun]
  simp only [List.nil_append]
  exact ⟨fun x => loopRun_count_le dl oracle root items chan c0 s0 x hnd,
    loopRun_adj dl oracle root items chan c0 s0⟩

theorem loop_retry_policy_check :
    List.countP (fun e => decide (e = xferEvent false "a"))
      (transfer_loop false (fun _ a => a = 2) "r" [("a", "a"), ("b", "b")]
        { chan := false, completed := [], store := [], lines := [],
          events := [] }).events ≤ 3 ∧
    AdjFrom (StepOK false) (transfer_loop false (fun _ a => a = 2) "r"
      [("a", "a"), ("b", "b")]
      { chan := false, completed := [], store := [], lines := [], events := [] }).events
      none :=
  ⟨(loop_retry_policy false (fun _ a => a = 2) "r" [("a", "a"), ("b", "b")] false [] []
      (by decide)).1 "a",
    (loop_retry_policy false (fun _ a => a = 2) "r" [("a", "a"), ("b", "b")] false [] []
      (by decide)).2⟩

theorem upload_folder_run_eq (oracle : String → Nat → Bool) (store : ProgressMap)
    (root : String) (files : List String) (resume : Bool) (c0 : List String)
    (hne : files ≠ [])
    (hc0 : c0 = (if resume then (lookupKey store root).getD [] else []))
    (hnotearly : files.filter (fun f => decide (f ∉ c0)) ≠ [] ∨ c0 = []) :
    upload_folder oracle store root files resume =
      (if ∀ f ∈ files, f ∈ (transfer_loop false oracle root
          ((files.filter (fun f => decide (f ∉ c0))).map (fun f => (f, f)))
          { chan := false, completed := c0, store := store,
            lines := (if c0 = [] then [] else [Line.resumeNote c0.length]),
            events := [] }).completed
      then
        { lines := (transfer_loop false oracle root
              ((files.filter (fun f => decide (f ∉ c0))).map (fun f => (f, f)))
              { chan := false, completed := c0, store := store,
                lines := (if c0 = [] then [] else [Line.resumeNote c0.length]),
                events := [] }).lines ++ [Line.allDone files.length],
          events := (transfer_loop false oracle root
              ((files.filter (fun f => decide (f ∉ c0))).map (fun f => (f, f)))
              { chan := false, completed := c0, store := store,
                lines := (if c0 = [] then [] else [Line.resumeNote c0.length]),
                events := [] }).events ++ [Event.clear root],
          store := clear_progress (transfer_loop false oracle root
              ((files.filter (fun f => decide (f ∉ c0))).map (fun f => (f, f)))
              { chan := false, completed := c0, store := store,
                lines := (if c0 = [] then [] else [Line.resumeNote c0.length]),
                events := [] }).store root,
          completed := (transfer_loop false oracle root
              ((files.filter (fun f => decide (f ∉ c0))).map (fun f => (f, f)))
              { chan := false, completed := c0, store := store,
                lines := (if c0 = [] then [] else [Line.resumeNote c0.length]),
                events := [] }).completed }
      else
        { lines := (transfer_loop false oracle root
              ((files.filter (fun f => decide (f ∉ c0))).map (fun f => (f, f)))
              { chan := false, completed := c0, store := store,
                lines := (if c0 = [] then [] else [Line.resumeNote c0.length]),
                events := [] }).lines,
          events := (transfer_loop false oracle root
              ((files.filter (fun f => decide (f ∉ c0))).map (fun f => (f, f)))
              { chan := false, completed := c0, store := store,
                lines := (if c0 = [] then [] else [Line.resumeNote c0.length]),
                events := [] }).events,
          store := (transfer_loop false oracle root
              ((files.filter (fun f => decide (f ∉ c0))).map (fun f => (f, f)))
              { chan := false, completed := c0, store := store,
                lines := (if c0 = [] then [] else [Line.resumeNote c0.length]),
                events := [] }).store,
          completed := (transfer_loop false oracle root
              ((files.filter (fun f => decide (f ∉ c0))).map (fun f => (f, f)))
              { chan := false, completed := c0, store := store,
                lines := (if c0 = [] then [] else [Line.resumeNote c0.length]),
                events := [] }).completed }) := by
  subst hc0
  simp only [upload_folder]
  rw [if_neg hne]
  rcases hnotearly with h | h
  · rw [if_neg (fun hand => h hand.1)]
  · rw [if_neg (fun hand => hand.2 h)]

theorem filter_map_pair_fst (p : String → Bool) :
    ∀ (files : List String),
      ((files.map (fun f => (f, f))).filter (fun it => p it.1)).map Prod.fst =
        files.filter p := by
  intro files
  induction files with
  | nil => rfl
  | cons f rest ih =>
    simp only [List.map_cons, List.filter_cons]
    by_cases hp : p f = true
    · simp [hp, ih]
    · simp [hp, ih]

theorem count_fail_map (j : String) :
    ∀ (files : List String), files.Nodup → j ∈ files →
      List.count (Line.fail j)
        (files.map (fun x => if x = j then Line.fail x else Line.ok x)) = 1 := by
  intro files
  induction files with
  | nil => intro _ h; cases h
  | cons f rest ih =>
    intro hnd hj
    rw [List.nodup_cons] at hnd
    rw [List.map_cons]
    by_cases hfj : f = j
    · subst hfj
      rw [if_pos rfl, List.count_cons_self]
      have hz : List.count (Line.fail f)
          (rest.map (fun x => if x = f then Line.fail x else Line.ok x)) = 0 := by
        rw [List.count_eq_zero]
        intro hmem
        rw [List.mem_map] at hmem
        obtain ⟨x, hx, hxe⟩ := hmem
        by_cases hxf : x = f
        · exact hnd.1 (hxf ▸ hx)
        · rw [if_neg hxf] at hxe
          exact Line.noConfusion hxe
      rw [hz]
    · rcases List.mem_cons.mp hj with hjf | hjr
      · exact absurd hjf.symm hfj
      · rw [if_neg hfj, List.count_cons_of_ne (fun hh => Line.noConfusion hh),
          ih hnd.2 hjr]

/-- C5: with resume disabled, if exactly one manifest item j exhausts all
3 attempts while every other item succeeds on some attempt, upload_folder
still transfers every other file (the final completed list is the manifest
without j, in manifest order), and the result lines are exactly one line per
manifest item in manifest order, a failure line for j and a success line for
every other item, the failure line occurring exactly once. -/
theorem upload_one_bad_item_report (oracle : String → Nat → Bool) (store : ProgressMap)
    (root j : String) (files : List String)
    (hnd : files.Nodup) (hj : j ∈ files)
    (hfail : ∀ a, oracle j a = false)
    (hsucc : ∀ x ∈ files, x ≠ j → attemptSucceeds oracle x = true) :
    (upload_folder oracle store root files false).lines =
      files.map (fun x => if x = j then Line.fail x else Line.ok x) ∧
    (upload_folder oracle store root files false).completed =
      files.filter (fun x => decide (¬ x = j)) ∧
    List.count (Line.fail j) (upload_folder oracle store root files false).lines = 1 := by
  have hne : files ≠ [] := by
    intro hh
    rw [hh] at hj
    exact absurd hj (List.not_mem_nil j)
  have hc0 : ([] : List String) =
      (if (false : Bool) then (lookupKey store root).getD [] else []) := by simp
  have hrun := upload_folder_run_eq oracle store root files false [] hne hc0 (Or.inr rfl)
  have hcompl : (transfer_loop false oracle root
      ((files.filter (fun f => decide (f ∉ ([] : List String)))).map (fun f => (f, f)))
      { chan := false, completed := [], store := store,
        lines := (if ([] : List String) = [] then []
          else [Line.resumeNote (List.length ([] : List String))]),
        events := [] }).completed = files.filter (fun x => decide (¬ x = j)) := by
    rw [transfer_loop_eq_loopRun]
    show (loopRun false oracle root
      ((files.filter (fun f => decide (f ∉ ([] : List String)))).map (fun f => (f, f)))
      false [] store).completed = _
    rw [loopRun_completed, filter_map_pair_fst, List.nil_append]
    have hrem : files.filter (fun f => decide (f ∉ ([] : List String))) = files := by
      apply List.filter_eq_self.mpr
      intro a _
      simp
    rw [hrem]
    apply List.filter_congr
    intro x hx
    by_cases hxj : x = j
    · rw [hxj]
      simp [attemptSucceeds, hfail 0, hfail 1, hfail 2]
    · simp [hsucc x hx hxj, hxj]
  have hjnot : j ∉ files.filter (fun x => decide (¬ x = j)) := by
    intro hmem
    have h2 := (List.mem_filter.mp hmem).2
    simp at h2
  have hcov : ¬ ∀ f ∈ files, f ∈ (transfer_loop false oracle root
      ((files.filter (fun f => decide (f ∉ ([] : List String)))).map (fun f => (f, f)))
      { chan := false, completed := [], store := store,
        lines := (if ([] : List String) = [] then []
          else [Line.resumeNote (List.length ([] : List String))]),
        events := [] }).completed := by
    intro hall
    have hjc := hall j hj
    rw [hcompl] at hjc
    exact hjnot hjc
  rw [hrun, if_neg hcov]
  have hlf : (transfer_loop false oracle root
      ((files.filter (fun f => decide (f ∉ ([] : List String)))).map (fun f => (f, f)))
      { chan := false, completed := [], store := store,
        lines := (if ([] : List String) = [] then []
          else [Line.resumeNote (List.length ([] : List String))]),
        events := [] }).lines =
      files.map (fun x => if x = j then Line.fail x else Line.ok x) := by
    rw [transfer_loop_eq_loopRun]
    show (if ([] : List String) = [] then []
        else [Line.resumeNote (List.length ([] : List String))]) ++
      (loopRun false oracle root
        ((files.filter (fun f => decide (f ∉ ([] : List String)))).map (fun f => (f, f)))
        false [] store).lines = _
    rw [if_pos rfl, List.nil_append, loopRun_lines, List.map_map]
    have hrem : files.filter (fun f => decide (f ∉ ([] : List String))) = files := by
      apply List.filter_eq_self.mpr
      intro a _
      simp
    rw [hrem]
    apply List.map_congr_left
    intro x hx
    by_cases hxj : x = j
    · rw [hxj]
      simp [Function.comp, attemptSucceeds, hfail 0, hfail 1, hfail 2]
    · simp [Function.comp, hsucc x hx hxj, hxj]
  refine ⟨hlf, hcompl, ?_⟩
  rw [hlf]
  exact count_fail_map j files hnd hj

theorem upload_one_bad_item_report_check :
    (upload_folder (fun x _ => decide (¬ x = "b")) [] "r" ["a", "b", "c"] false).lines =
      ["a", "b", "c"].map (fun x => if x = "b" then Line.fail x else Line.ok x) ∧
    (upload_folder (fun x _ => decide (¬ x = "b")) [] "r" ["a", "b", "c"] false).completed =
      ["a", "b", "c"].filter (fun x => decide (¬ x = "b")) ∧
    List.count (Line.fail "b")
      (upload_folder (fun x _ => decide (¬ x = "b")) [] "r" ["a", "b", "c"] false).lines = 1 :=
  upload_one_bad_item_report (fun x _ => decide (¬ x = "b")) [] "r" "b" ["a", "b", "c"]
    (by decide) (by decide) (fun _ => rfl) (by decide)

/-- C6 amended: a resumed session whose persisted completed set covers the
whole manifest performs zero transfer operations in both directions;
upload_folder returns its completion report without any event at all, so
without establishing a connection, while download_folder performs exactly the
single connect made at line 348 before the resume check, and no transfer. -/
theorem completed_session_no_transfers :
    (∀ (oracle : String → Nat → Bool) (store : ProgressMap) (root : String)
        (files : List String) (cs : List String),
        lookupKey store root = some cs → cs ≠ [] → files ≠ [] →
        (∀ f ∈ files, f ∈ cs) →
        upload_folder oracle store root files true =
          { lines := [Line.alreadyDone cs.length], events := [],
            store := store, completed := cs }) ∧
    (∀ (oracle : String → Nat → Bool) (store : ProgressMap) (root : String)
        (files : List (String × String)) (cs : List String),
        lookupKey store root = some cs → cs ≠ [] → files ≠ [] →
        (∀ p ∈ files, p.1 ∈ cs) →
        download_folder oracle store root files true =
          { lines := [Line.alreadyDone cs.length], events := [Event.connect],
            store := store, completed := cs }) := by
  constructor
  · intro oracle store root files cs hlk hcs hne hall
    have hrem : files.filter (fun f => decide (f ∉ cs)) = [] := by
      rw [List.filter_eq_nil_iff]
      intro a ha
      simp [hall a ha]
    simp only [upload_folder, hlk]
    rw [if_neg hne]
    simp only [if_true, Option.getD_some]
    rw [if_pos ⟨hrem, hcs⟩]
  · intro oracle store root files cs hlk hcs hne hall
    have hrem : files.filter (fun p => decide (p.1 ∉ cs)) = [] := by
      rw [List.filter_eq_nil_iff]
      intro a ha
      simp [hall a ha]
    simp only [download_folder, hlk]
    rw [if_neg hne]
    simp only [if_true, Option.getD_some]
    rw [if_pos ⟨hrem, hcs⟩]

theorem completed_session_no_transfers_check :
    upload_folder (fun _ _ => true) [("r", ["a"])] "r" ["a"] true =
      { lines := [Line.alreadyDone 1], events := [],
        store := [("r", ["a"])], completed := ["a"] } ∧
    download_folder (fun _ _ => true) [("R", ["R/a"])] "R" [("R/a", "a")] true =
      { lines := [Line.alreadyDone 1], events := [Event.connect],
        store := [("R", ["R/a"])], completed := ["R/a"] } :=
  ⟨completed_session_no_transfers.1 (fun _ _ => true) [("r", ["a"])] "r" ["a"] ["a"]
      (by decide) (by decide) (by decide) (by decide),
    completed_session_no_transfers.2 (fun _ _ => true) [("R", ["R/a"])] "R"
      [("R/a", "a")] ["R/a"] (by decide) (by decide) (by decide) (by decide)⟩

theorem upload_folder_empty_eq (oracle : String → Nat → Bool) (store : ProgressMap)
    (root : String) (resume : Bool) :
    upload_folder oracle store root [] resume =
      { lines := [Line.err], events := [], store := store, completed := [] } := by
  simp [upload_folder]

theorem upload_folder_early_eq (oracle : String → Nat → Bool) (store : ProgressMap)
    (root : String) (files : List String) (resume : Bool) (c0 : List String)
    (hc0 : c0 = (if resume then (lookupKey store root).getD [] else []))
    (hne : files ≠ []) (hrem : files.filter (fun f => decide (f ∉ c0)) = [])
    (hcs : c0 ≠ []) :
    upload_folder oracle store root files resume =
      { lines := [Line.alreadyDone c0.length], events := [], store := store,
        completed := c0 } := by
  subst hc0
  simp only [upload_folder]
  rw [if_neg hne, if_pos ⟨hrem, hcs⟩]

theorem take_prefix_of_le (l : List Event) (j k : Nat) (h : j ≤ k) :
    l.take j <+: l.take k := by
  have heq : (l.take k).take j = l.take j := by
    rw [List.take_take, Nat.min_eq_left h]
  rw [← heq]
  exact List.take_prefix j (l.take k)

theorem take_append_clear (A : List Event) (r : String) (k : Nat)
    (h : Event.clear r ∉ (A ++ [Event.clear r]).take k) :
    (A ++ [Event.clear r]).take k = A.take k := by
  by_cases hk : k ≤ A.length
  · exact List.take_append_of_le_length hk
  · exfalso
    apply h
    have hall : (A ++ [Event.clear r]).take k = A ++ [Event.clear r] := by
      apply List.take_of_length_le
      rw [List.length_append, List.length_singleton]
      omega
    rw [hall]
    exact List.mem_append_right A (by simp)

theorem loaded_monotone (root : String) (store : ProgressMap) (c0 : List String)
    (E : List Event) (hc0 : (lookupKey store root).getD [] = c0)
    (hnc : Event.clear root ∉ E)
    (hchain : ChainFrom c0 (savePayloads root E)) :
    ∀ j k x, j ≤ k →
      x ∈ (lookupKey (storeAfter store (E.take j)) root).getD [] →
      x ∈ (lookupKey (storeAfter store (E.take k)) root).getD [] := by
  intro j k x hjk hx
  have hncj : Event.clear root ∉ E.take j := fun hm => hnc ((List.take_prefix j E).subset hm)
  have hnck : Event.clear root ∉ E.take k := fun hm => hnc ((List.take_prefix k E).subset hm)
  have hjkpre : E.take j <+: E.take k := take_prefix_of_le E j k hjk
  obtain ⟨ts, hts⟩ := savePayloads_prefix root _ _ hjkpre
  obtain ⟨ts2, hts2⟩ := savePayloads_prefix root _ _ (List.take_prefix k E)
  have hchaink : ChainFrom c0 (savePayloads root (E.take k)) := by
    apply chainFrom_append_left c0 _ ts2
    rw [hts2]
    exact hchain
  by_cases hpj : savePayloads root (E.take j) = []
  · rw [lookup_storeAfter_no_save root _ store hncj hpj, hc0] at hx
    by_cases hpk : savePayloads root (E.take k) = []
    · rw [lookup_storeAfter_no_save root _ store hnck hpk, hc0]
      exact hx
    · rw [lookup_storeAfter_last_save root _ store hnck hpk]
      simp only [Option.getD_some]
      rw [chainLast_ne_nil [] c0 _ hpk]
      exact chainFrom_init_sub_last c0 _ hchaink x hx
  · have hpk : savePayloads root (E.take k) ≠ [] := by
      intro hh
      rw [hh] at hts
      rcases List.append_eq_nil.mp hts with ⟨h1, _⟩
      exact hpj h1
    rw [lookup_storeAfter_last_save root _ store hncj hpj] at hx
    rw [lookup_storeAfter_last_save root _ store hnck hpk]
    simp only [Option.getD_some] at hx ⊢
    rw [chainLast_ne_nil [] c0 _ hpj] at hx
    rw [chainLast_ne_nil [] c0 _ hpk, ← hts]
    have hchainjk : ChainFrom c0 (savePayloads root (E.take j) ++ ts) := by
      rw [hts]
      exact hchaink
    exact chainFrom_last_mono c0 _ ts hchainjk x hx

/-- C8 amended: in an upload session run with resume enabled, the persisted
completed set of the root only grows: after any two crash points of the run,
the record loaded from the longer executed prefix contains every identifier of
the record loaded from the shorter one, as long as the final clear has not
executed; and the clear event is emitted only when the completed set covers
the whole manifest.  (A run with resume disabled resets the set and can
shrink it, as the counterexample shows.) -/
theorem progress_monotone_resume (oracle : String → Nat → Bool) (store : ProgressMap)
    (root : String) (files : List String) :
    (∀ j k x, j ≤ k →
      Event.clear root ∉ (upload_folder oracle store root files true).events.take k →
      x ∈ (lookupKey (storeAfter store
        ((upload_folder oracle store root files true).events.take j)) root).getD [] →
      x ∈ (lookupKey (storeAfter store
        ((upload_folder oracle store root files true).events.take k)) root).getD []) ∧
    (Event.clear root ∈ (upload_folder oracle store root files true).events →
      ∀ f ∈ files, f ∈ (upload_folder oracle store root files true).completed) := by
  have hdesc : (upload_folder oracle store root files true).events = [] ∨
      ∃ E, (ChainFrom ((lookupKey store root).getD []) (savePayloads root E) ∧
            (∀ r, Event.clear r ∉ E)) ∧
        (((upload_folder oracle store root files true).events = E ∧
            Event.clear root ∉ (upload_folder oracle store root files true).events) ∨
          ((upload_folder oracle store root files true).events = E ++ [Event.clear root] ∧
            ∀ f ∈ files, f ∈ (upload_folder oracle store root files true).completed)) := by
    by_cases hne : files = []
    · left
      rw [hne, upload_folder_empty_eq]
    · set c0 : List String := (lookupKey store root).getD [] with hc0def
      by_cases hearly : files.filter (fun f => decide (f ∉ c0)) = [] ∧ c0 ≠ []
      · left
        rw [upload_folder_early_eq oracle store root files true c0 (by simp [hc0def])
          hne hearly.1 hearly.2]
      · have hnotearly : files.filter (fun f => decide (f ∉ c0)) ≠ [] ∨ c0 = [] := by
          by_cases h1 : files.filter (fun f => decide (f ∉ c0)) = []
          · right
            by_contra h2
            exact hearly ⟨h1, h2⟩
          · left
            exact h1
        have hrun := upload_folder_run_eq oracle store root files true c0 hne
          (by simp [hc0def]) hnotearly
        right
        refine ⟨(loopRun false oracle root
          ((files.filter (fun f => decide (f ∉ c0))).map (fun f => (f, f)))
          false c0 store).events, ⟨?_, ?_⟩, ?_⟩
        · exact (loopRun_chain false oracle root _ false c0 store).1
        · intro r
          exact loopRun_clear_not_mem false oracle root _ false c0 store r
        · by_cases hcov : ∀ f ∈ files, f ∈ (transfer_loop false oracle root
            ((files.filter (fun f => decide (f ∉ c0))).map (fun f => (f, f)))
            { chan := false, completed := c0, store := store,
              lines := (if c0 = [] then [] else [Line.resumeNote c0.length]),
              events := [] }).completed
          · right
            constructor
            · rw [hrun, if_pos hcov]
              show (transfer_loop false oracle root
                ((files.filter (fun f => decide (f ∉ c0))).map (fun f => (f, f)))
                { chan := false, completed := c0, store := store,
                  lines := (if c0 = [] then [] else [Line.resumeNote c0.length]),
                  events := [] }).events ++ [Event.clear root] = _
              rw [transfer_loop_eq_loopRun]
              simp
            · intro f hf
              rw [hrun, if_pos hcov]
              exact hcov f hf
          · left
            constructor
            · rw [hrun, if_neg hcov]
              show (transfer_loop false oracle root
                ((files.filter (fun f => decide (f ∉ c0))).map (fun f => (f, f)))
                { chan := false, completed := c0, store := store,
                  lines := (if c0 = [] then [] else [Line.resumeNote c0.length]),
                  events := [] }).events = _
              rw [transfer_loop_eq_loopRun]
              simp
            · rw [hrun, if_neg hcov]
              show Event.clear root ∉ (transfer_loop false oracle root
                ((files.filter (fun f => decide (f ∉ c0))).map (fun f => (f, f)))
                { chan := false, completed := c0, store := store,
                  lines := (if c0 = [] then [] else [Line.resumeNote c0.length]),
                  events := [] }).events
              rw [transfer_loop_eq_loopRun]
              exact loopRun_clear_not_mem false oracle root _ false c0 store root
  constructor
  · intro j k x hjk hnck hx
    rcases hdesc with hz | ⟨E, ⟨hchain, hncE⟩, hcase⟩
    · rw [hz] at hx ⊢
      simpa using hx
    · rcases hcase with ⟨hev, _⟩ | ⟨hev, _⟩
      · rw [hev] at hnck hx ⊢
        exact loaded_monotone root store _ E rfl (hncE root) hchain j k x hjk hx
      · rw [hev] at hnck hx ⊢
        have htk := take_append_clear E root k hnck
        have hncj : Event.clear root ∉ (E ++ [Event.clear root]).take j := by
          intro hm
          exact hnck ((take_prefix_of_le (E ++ [Event.clear root]) j k hjk).subset hm)
        have htj := take_append_clear E root j hncj
        rw [htj] at hx
        rw [htk]
        exact loaded_monotone root store _ E rfl (hncE root) hchain j k x hjk hx
  · intro hmem
    rcases hdesc with hz | ⟨E, ⟨_, hncE⟩, hcase⟩
    · rw [hz] at hmem
      cases hmem
    · rcases hcase with ⟨_, hncr⟩ | ⟨_, hcov⟩
      · exact absurd hmem hncr
      · exact hcov

theorem progress_monotone_resume_check :
    "a" ∈ (lookupKey (storeAfter [("r", ["a"])]
      ((upload_folder (fun _ _ => true) [("r", ["a"])] "r" ["a", "b"]
        true).events.take 3)) "r").getD [] :=
  (progress_monotone_resume (fun _ _ => true) [("r", ["a"])] "r" ["a", "b"]).1
    0 3 "a" (by decide) (by decide) (by decide)

theorem download_folder_run_eq (oracle : String → Nat → Bool) (store : ProgressMap)
    (root : String) (files : List (String × String)) (resume : Bool) (c0 : List String)
    (hne : files ≠ [])
    (hc0 : c0 = (if resume then (lookupKey store root).getD [] else []))
    (hnotearly : files.filter (fun p => decide (p.1 ∉ c0)) ≠ [] ∨ c0 = []) :
    download_folder oracle store root files resume =
      (if (transfer_loop true oracle root (files.filter (fun p => decide (p.1 ∉ c0)))
          { chan := true, completed := c0, store := store,
            lines := (if c0 = [] then [] else [Line.resumeNote c0.length]),
            events := [Event.connect] }).completed.length = files.length
      then
        { lines := (transfer_loop true oracle root
              (files.filter (fun p => decide (p.1 ∉ c0)))
              { chan := true, completed := c0, store := store,
                lines := (if c0 = [] then [] else [Line.resumeNote c0.length]),
                events := [Event.connect] }).lines ++ [Line.allDone files.length],
          events := (transfer_loop true oracle root
              (files.filter (fun p => decide (p.1 ∉ c0)))
              { chan := true, completed := c0, store := store,
                lines := (if c0 = [] then [] else [Line.resumeNote c0.length]),
                events := [Event.connect] }).events ++ [Event.clear root],
          store := clear_download_progress (transfer_loop true oracle root
              (files.filter (fun p => decide (p.1 ∉ c0)))
              { chan := true, completed := c0, store := store,
                lines := (if c0 = [] then [] else [Line.resumeNote c0.length]),
                events := [Event.connect] }).store root,
          completed := (transfer_loop true oracle root
              (files.filter (fun p => decide (p.1 ∉ c0)))
              { chan := true, completed := c0, store := store,
                lines := (if c0 = [] then [] else [Line.resumeNote c0.length]),
                events := [Event.connect] }).completed }
      else
        { lines := (transfer_loop true oracle root
              (files.filter (fun p => decide (p.1 ∉ c0)))
              { chan := true, completed := c0, store := store,
                lines := (if c0 = [] then [] else [Line.resumeNote c0.length]),
                events := [Event.connect] }).lines,
          events := (transfer_loop true oracle root
              (files.filter (fun p => decide (p.1 ∉ c0)))
              { chan := true, completed := c0, store := store,
                lines := (if c0 = [] then [] else [Line.resumeNote c0.length]),
                events := [Event.connect] }).events,
          store := (transfer_loop true oracle root
              (files.filter (fun p => decide (p.1 ∉ c0)))
              { chan := true, completed := c0, store := store,
                lines := (if c0 = [] then [] else [Line.resumeNote c0.length]),
                events := [Event.connect] }).store,
          completed := (transfer_loop true oracle root
              (files.filter (fun p => decide (p.1 ∉ c0)))
              { chan := true, completed := c0, store := store,
                lines := (if c0 = [] then [] else [Line.resumeNote c0.length]),
                events := [Event.connect] }).completed }) := by
  subst hc0
  simp only [download_folder]
  rw [if_neg hne]
  rcases hnotearly with h | h
  · rw [if_neg (fun hand => h hand.1)]
  · rw [if_neg (fun hand => hand.2 h)]

/-- C7 amended: for a session that enters its transfer loop, upload_folder
emits the clear of its progress record exactly when the completed set covers
every manifest item, while download_folder emits it exactly when the length of
the completed list equals the number of manifest files, a weaker condition
that coincides with coverage only when the record holds no stale
identifiers. -/
theorem progress_clear_conditions :
    (∀ (oracle : String → Nat → Bool) (store : ProgressMap) (root : String)
        (files : List String) (resume : Bool) (c0 : List String),
        c0 = (if resume then (lookupKey store root).getD [] else []) →
        files ≠ [] →
        (files.filter (fun f => decide (f ∉ c0)) ≠ [] ∨ c0 = []) →
        (Event.clear root ∈ (upload_folder oracle store root files resume).events ↔
          ∀ f ∈ files, f ∈ (upload_folder oracle store root files resume).completed)) ∧
    (∀ (oracle : String → Nat → Bool) (store : ProgressMap) (root : String)
        (files : List (String × String)) (resume : Bool) (c0 : List String),
        c0 = (if resume then (lookupKey store root).getD [] else []) →
        files ≠ [] →
        (files.filter (fun p => decide (p.1 ∉ c0)) ≠ [] ∨ c0 = []) →
        (Event.clear root ∈ (download_folder oracle store root files resume).events ↔
          (download_folder oracle store root files resume).completed.length =
            files.length)) := by
  constructor
  · intro oracle store root files resume c0 hc0 hne hnotearly
    have hrun := upload_folder_run_eq oracle store root files resume c0 hne hc0 hnotearly
    by_cases hcov : ∀ f ∈ files, f ∈ (transfer_loop false oracle root
        ((files.filter (fun f => decide (f ∉ c0))).map (fun f => (f, f)))
        { chan := false, completed := c0, store := store,
          lines := (if c0 = [] then [] else [Line.resumeNote c0.length]),
          events := [] }).completed
    · rw [hrun, if_pos hcov]
      exact iff_of_true (List.mem_append_right _ (by simp)) hcov
    · rw [hrun, if_neg hcov]
      have hnomem : Event.clear root ∉ (transfer_loop false oracle root
          ((files.filter (fun f => decide (f ∉ c0))).map (fun f => (f, f)))
          { chan := false, completed := c0, store := store,
            lines := (if c0 = [] then [] else [Line.resumeNote c0.length]),
            events := [] }).events := by
        intro hm
        rw [transfer_loop_eq_loopRun] at hm
        simp only [List.nil_append] at hm
        exact loopRun_clear_not_mem false oracle root _ false c0 store root hm
      exact iff_of_false hnomem hcov
  · intro oracle store root files resume c0 hc0 hne hnotearly
    have hrun := download_folder_run_eq oracle store root files resume c0 hne hc0 hnotearly
    by_cases hcov : (transfer_loop true oracle root
        (files.filter (fun p => decide (p.1 ∉ c0)))
        { chan := true, completed := c0, store := store,
          lines := (if c0 = [] then [] else [Line.resumeNote c0.length]),
          events := [Event.connect] }).completed.length = files.length
    · rw [hrun, if_pos hcov]
      exact iff_of_true (List.mem_append_right _ (by simp)) hcov
    · rw [hrun, if_neg hcov]
      have hnomem : Event.clear root ∉ (transfer_loop true oracle root
          (files.filter (fun p => decide (p.1 ∉ c0)))
          { chan := true, completed := c0, store := store,
            lines := (if c0 = [] then [] else [Line.resumeNote c0.length]),
            events := [Event.connect] }).events := by
        intro hm
        rw [transfer_loop_eq_loopRun] at hm
        rcases List.mem_append.mp hm with hm2 | hm2
        · simp at hm2
        · exact loopRun_clear_not_mem true oracle root _ true c0 store root hm2
      exact iff_of_false hnomem hcov

theorem progress_clear_conditions_check :
    (Event.clear "r" ∈ (upload_folder (fun _ _ => true) [] "r" ["a"] false).events ↔
      ∀ f ∈ ["a"], f ∈ (upload_folder (fun _ _ => true) [] "r" ["a"] false).completed) ∧
    (Event.clear "R" ∈ (download_folder (fun _ _ => false) [("R", ["stale"])] "R"
        [("R/a", "a")] true).events ↔
      (download_folder (fun _ _ => false) [("R", ["stale"])] "R"
        [("R/a", "a")] true).completed.length = 1) :=
  ⟨progress_clear_conditions.1 (fun _ _ => true) [] "r" ["a"] false [] (by decide)
      (by decide) (Or.inr rfl),
    progress_clear_conditions.2 (fun _ _ => false) [("R", ["stale"])] "R"
      [("R/a", "a")] true ["stale"] (by decide) (by decide) (Or.inl (by decide))⟩
